import Mathlib

/-!
Verification of the "definitely" path-test flow analyses (PTFA) of this
repository: a worklist fixpoint engine over a two-element boolean lattice,
instantiated twice (Definitely-Reachable, backward from Exit nodes, and
Definitely-Reaching, forward from Entry nodes), and duplicated across two
files (`src/main.py`, whose inner loop is `while nid := worklist.pop()`
guarded by `suppress(IndexError)`, and `src/ptfa.py`, whose inner loop is
`while self.worklist`).

Python dictionaries are embedded as association lists (`Dict`), Python's
`KeyError` as an explicit error value, and the two engine loops as
fuel-indexed recursions; a fuel bound `fuelOf` is fixed and proved
sufficient, so fuel exhaustion (`RunRes.out`) never occurs.
-/

namespace PTFA

/-- A Python `dict[int, bool]`: an association list keyed by node id,
insertion-ordered, with at most one entry per key (maintained by `Dict.set`). -/
abbrev Dict := List (Nat × Bool)

/-- Lookup `d[k]`, returning `none` where Python raises `KeyError`. -/
def Dict.lookup : Dict → Nat → Option Bool
  | [], _ => none
  | (k', v') :: rest, k => if k' = k then some v' else Dict.lookup rest k

/-- Assignment `d[k] = v`: update the existing entry in place, else append a new entry
(Python assignment to a dict key). -/
def Dict.set : Dict → Nat → Bool → Dict
  | [], k, v => [(k, v)]
  | (k', v') :: rest, k, v =>
      if k' = k then (k, v) :: rest else (k', v') :: Dict.set rest k v

/-- The list of keys of a dict, in insertion order. -/
def Dict.keys (d : Dict) : List Nat := d.map Prod.fst

/-- The comprehension `{k: True for k in ids}` (src/ptfa.py lines 47-48, src/main.py lines 46-47). -/
def initDict (ids : List Nat) : Dict :=
  ids.foldl (fun d k => d.set k true) []

/-- The CFG interface the engine consumes (the `code_analysis.CFG` methods
actually called by the engine). -/
structure CFG where
  get_node_ids : List Nat
  get_type : Nat → String
  get_any_parents : Nat → List Nat
  get_any_children : Nat → List Nat

/-- The predicate type `PatternCheck = Callable[[CFG, int], bool]`. -/
abbrev PatternCheck := CFG → Nat → Bool

/-- The mutable per-run state of `DefinitelyPTFA`:
`self.visited`, `self.worklist`, `self.in_dict`, `self.out_dict`. -/
structure St where
  visited : List Nat
  worklist : List Nat
  in_dict : Dict
  out_dict : Dict
deriving DecidableEq, Repr

/-- Which dictionary lookup raised the `KeyError` (the `traceback` site). -/
inductive Site
  | checkNode
  | guardNear
  | guardFar
  | propRead
deriving DecidableEq, Repr

/-- A Python `KeyError` with the missing key and the lookup site. -/
inductive Err
  | keyError (site : Site) (key : Nat)
deriving DecidableEq, Repr

/-- The two concrete subclasses of `DefinitelyPTFA`. -/
inductive Dir
  | reachable
  | reaching
deriving DecidableEq, Repr

/-- Python `bool` comparison `a < b` (`False < True`). -/
def bLT (a b : Bool) : Bool := !a && b

/-- The seed nodes, in `get_node_ids` order:
`DefinitelyReachablePTFA.get_exit_node` filters `get_type(nid) == "Exit"`,
`DefinitelyReachingPTFA.get_entry_node` filters `get_type(nid) == "Entry"`. -/
def seedsOf (d : Dir) (cfg : CFG) : List Nat :=
  match d with
  | .reachable => cfg.get_node_ids.filter (fun nid => decide (cfg.get_type nid = "Exit"))
  | .reaching => cfg.get_node_ids.filter (fun nid => decide (cfg.get_type nid = "Entry"))

/-- The per-seed side effects of `pre_loop_init` before each `yield`:
Reachable forces `out_dict[exit_nid] = False`, Reaching forces
`in_dict[entry_nid] = False`; both mark the seed visited and push it. -/
def applySeed (d : Dir) (st : St) (s : Nat) : St :=
  match d with
  | .reachable =>
      { st with out_dict := st.out_dict.set s false
                visited := st.visited.insert s
                worklist := s :: st.worklist }
  | .reaching =>
      { st with in_dict := st.in_dict.set s false
                visited := st.visited.insert s
                worklist := s :: st.worklist }

/-- Method `check_node`: Reachable sets `in_dict[nid] = out_dict[nid] or P(cfg, nid)`,
Reaching sets `out_dict[nid] = in_dict[nid] or P(cfg, nid)`; the read on the
right-hand side can raise `KeyError`. -/
def check_node (d : Dir) (cfg : CFG) (p : PatternCheck) (st : St) (nid : Nat) :
    Except Err St :=
  match d with
  | .reachable =>
      match st.out_dict.lookup nid with
      | none => .error (.keyError .checkNode nid)
      | some far => .ok { st with in_dict := st.in_dict.set nid (far || p cfg nid) }
  | .reaching =>
      match st.in_dict.lookup nid with
      | none => .error (.keyError .checkNode nid)
      | some far => .ok { st with out_dict := st.out_dict.set nid (far || p cfg nid) }

/-- Method `next_nodes`: parents for Reachable, children for Reaching. -/
def next_nodes (d : Dir) (cfg : CFG) (nid : Nat) : List Nat :=
  match d with
  | .reachable => cfg.get_any_parents nid
  | .reaching => cfg.get_any_children nid

/-- Method `can_propagate`: Reachable tests `in_dict[nid] < out_dict[next_nid]`,
Reaching tests `out_dict[nid] < in_dict[next_nid]`; Python evaluates the left
lookup first, and either lookup can raise `KeyError`. -/
def can_propagate (d : Dir) (st : St) (nid next_nid : Nat) : Except Err Bool :=
  match d with
  | .reachable =>
      match st.in_dict.lookup nid with
      | none => .error (.keyError .guardNear nid)
      | some near =>
          match st.out_dict.lookup next_nid with
          | none => .error (.keyError .guardFar next_nid)
          | some far => .ok (bLT near far)
  | .reaching =>
      match st.out_dict.lookup nid with
      | none => .error (.keyError .guardNear nid)
      | some near =>
          match st.in_dict.lookup next_nid with
          | none => .error (.keyError .guardFar next_nid)
          | some far => .ok (bLT near far)

/-- Method `propagate`: Reachable sets `out_dict[next_nid] = in_dict[nid]`, Reaching
sets `in_dict[next_nid] = out_dict[nid]`; the right-hand read can raise. -/
def propagate (d : Dir) (st : St) (nid next_nid : Nat) : Except Err St :=
  match d with
  | .reachable =>
      match st.in_dict.lookup nid with
      | none => .error (.keyError .propRead nid)
      | some v => .ok { st with out_dict := st.out_dict.set next_nid v }
  | .reaching =>
      match st.out_dict.lookup nid with
      | none => .error (.keyError .propRead nid)
      | some v => .ok { st with in_dict := st.in_dict.set next_nid v }

/-- The `for next_nid in self.next_nodes(nid)` body: if
`can_propagate(nid, next_nid) or next_nid not in visited` then propagate,
push `next_nid` and mark it visited. `can_propagate` is evaluated first
(Python `or` evaluates its left operand unconditionally). -/
def foldNexts (d : Dir) (st : St) (nid : Nat) : List Nat → Except Err St
  | [] => .ok st
  | next_nid :: rest =>
      match can_propagate d st nid next_nid with
      | .error e => .error e
      | .ok b =>
          if b || !(st.visited.contains next_nid) then
            match propagate d st nid next_nid with
            | .error e => .error e
            | .ok st' =>
                foldNexts d
                  { st' with worklist := next_nid :: st'.worklist
                             visited := st'.visited.insert next_nid }
                  nid rest
          else
            foldNexts d st nid rest

/-- One iteration of the inner while loop after the pop of `nid`:
`check_node` then the propagation loop over `next_nodes(nid)`. -/
def processNode (d : Dir) (cfg : CFG) (p : PatternCheck) (st : St) (nid : Nat) :
    Except Err St :=
  match check_node d cfg p st nid with
  | .error e => .error e
  | .ok st' => foldNexts d st' nid (next_nodes d cfg nid)

/-- Outcome of a (fuel-indexed) loop: a final state, a `KeyError`, or fuel
exhaustion (`out`, proved unreachable at fuel `fuelOf`). -/
inductive DRes
  | ok (st : St)
  | err (e : Err)
  | out
deriving DecidableEq, Repr

/-- The inner loop of src/ptfa.py (`while self.worklist: nid = self.worklist.pop(); ...`):
pop from the top of the stack until the worklist is empty. -/
def drainP (d : Dir) (cfg : CFG) (p : PatternCheck) : Nat → St → DRes
  | _, st@⟨_, [], _, _⟩ => .ok st
  | 0, _ => .out
  | fuel + 1, ⟨vis, nid :: rest, ind, outd⟩ =>
      match processNode d cfg p ⟨vis, rest, ind, outd⟩ nid with
      | .error e => .err e
      | .ok st' => drainP d cfg p fuel st'

/-- The inner loop of src/main.py
(`with suppress(IndexError): while nid := self.worklist.pop(): ...`):
pop until the worklist is empty (the suppressed `IndexError`) or until the
popped node id is `0`, which the walrus assignment makes falsy — the loop
then exits with the node unprocessed and the rest of the worklist intact. -/
def drainM (d : Dir) (cfg : CFG) (p : PatternCheck) : Nat → St → DRes
  | _, st@⟨_, [], _, _⟩ => .ok st
  | fuel, ⟨vis, nid :: rest, ind, outd⟩ =>
      if nid = 0 then .ok ⟨vis, rest, ind, outd⟩
      else
        match fuel with
        | 0 => .out
        | fuel + 1 =>
            match processNode d cfg p ⟨vis, rest, ind, outd⟩ nid with
            | .error e => .err e
            | .ok st' => drainM d cfg p fuel st'

/-- The loop `for _ in self.pre_loop_init(): <inner loop>`: the generator applies one
seed's side effects before each `yield`, and the inner loop runs after each. -/
def runSeeds (drain : Nat → St → DRes) (d : Dir) (fuel : Nat) :
    List Nat → St → DRes
  | [], st => .ok st
  | s :: ss, st =>
      match drain fuel (applySeed d st s) with
      | .ok st' => runSeeds drain d fuel ss st'
      | r => r

/-- Outcome of a whole run: the returned `(in_dict, out_dict)` pair, a
`KeyError`, or fuel exhaustion. -/
inductive RunRes
  | ok (pair : Dict × Dict)
  | err (e : Err)
  | out
deriving DecidableEq, Repr

/-- The state at the top of `__call__`: fresh `visited`/`worklist` and
all-`True` `in_dict`/`out_dict` over `get_node_ids`. -/
def initSt (cfg : CFG) : St :=
  ⟨[], [], initDict cfg.get_node_ids, initDict cfg.get_node_ids⟩

/-- Fuel provably sufficient for every drain of a run (three boolean facts
plus one worklist slot per distinct node, plus one). -/
def fuelOf (cfg : CFG) : Nat :=
  3 * (initDict cfg.get_node_ids).length + 1

/-! ### Derived notions used by the verification: key sets, measures,
orderings, the loop invariant, well-formedness, and the concrete inputs of
the counterexamples and witnesses. -/

/-- The number of `True` facts in a dictionary. -/
def countTrue (d : Dict) : Nat := d.countP (fun kv => kv.2)

/-- Pointwise decrease of fact dictionaries: every key present before is
still present, with the same value or with `True` lowered to `False`. -/
def DictLE (d' d : Dict) : Prop :=
  ∀ n v, d.lookup n = some v →
    ∃ v', d'.lookup n = some v' ∧ (v' = v ∨ (v = true ∧ v' = false))

/-- The key list shared by both fact dictionaries throughout a run. -/
def dkeys (cfg : CFG) : List Nat := (initDict cfg.get_node_ids).keys

def Dir.nearD : Dir → St → Dict
  | .reachable, st => st.in_dict
  | .reaching, st => st.out_dict

def Dir.farD : Dir → St → Dict
  | .reachable, st => st.out_dict
  | .reaching, st => st.in_dict

def Dir.withNear : Dir → St → Dict → St
  | .reachable, st, x => { st with in_dict := x }
  | .reaching, st, x => { st with out_dict := x }

def Dir.withFar : Dir → St → Dict → St
  | .reachable, st, x => { st with out_dict := x }
  | .reaching, st, x => { st with in_dict := x }

/-- The number of still-unvisited node ids. -/
def Um (cfg : CFG) (st : St) : Nat :=
  (dkeys cfg).countP (fun n => decide (n ∉ st.visited))

/-- The number of `True` facts across both dictionaries. -/
def Tm (st : St) : Nat := countTrue st.in_dict + countTrue st.out_dict

/-- The loop measure: unvisited nodes + true facts + pending worklist items.
Every iteration of the inner while loop strictly decreases it. -/
def phi (cfg : CFG) (st : St) : Nat := Um cfg st + Tm st + st.worklist.length

/-- Pointwise decrease of both fact dictionaries between two states. -/
def StLE (st' st : St) : Prop :=
  DictLE st'.in_dict st.in_dict ∧ DictLE st'.out_dict st.out_dict

/-- Well-formedness of a CFG: all adjacency lands inside `get_node_ids`. -/
@[reducible] def WF (cfg : CFG) : Prop :=
  ∀ n ∈ cfg.get_node_ids,
    (∀ x ∈ cfg.get_any_parents n, x ∈ cfg.get_node_ids) ∧
    (∀ x ∈ cfg.get_any_children n, x ∈ cfg.get_node_ids)

/-- The worklist-loop invariant, with an allowance for the node `nid`
currently being processed: its outgoing propagations to the nodes still in
`l` have not happened yet. `FInv d cfg p nid [] st` is the plain invariant. -/
structure FInv (d : Dir) (cfg : CFG) (p : PatternCheck) (nid : Nat)
    (l : List Nat) (st : St) : Prop where
  keys_near : (d.nearD st).keys = dkeys cfg
  keys_far : (d.farD st).keys = dkeys cfg
  wl_keys : ∀ x ∈ st.worklist, x ∈ dkeys cfg
  wl_vis : ∀ x ∈ st.worklist, x ∈ st.visited
  unvis : ∀ n ∈ dkeys cfg, n ∉ st.visited →
    (d.nearD st).lookup n = some true ∧ (d.farD st).lookup n = some true
  nearFalse : ∀ n, (d.nearD st).lookup n = some false →
    (d.farD st).lookup n = some false ∧ p cfg n = false
  fixA : ∀ n ∈ dkeys cfg, n ∉ st.worklist →
    ∃ fv, (d.farD st).lookup n = some fv ∧
      (d.nearD st).lookup n = some (fv || p cfg n)
  fixB : ∀ n ∈ dkeys cfg, n ∉ st.worklist → ∀ nx ∈ next_nodes d cfg n,
    (d.nearD st).lookup n = some false → nx ∈ dkeys cfg →
    (d.farD st).lookup nx = some false ∨ (n = nid ∧ nx ∈ l)

/-- The plain invariant, holding between loop iterations. -/
def Inv (d : Dir) (cfg : CFG) (p : PatternCheck) (st : St) : Prop :=
  FInv d cfg p 0 [] st

/-- The state produced by the taken branch of the propagation loop:
far fact of `x` overwritten with `v`, `x` pushed and marked visited. -/
def stPush (d : Dir) (st : St) (x : Nat) (v : Bool) : St :=
  { d.withFar st ((d.farD st).set x v) with
      worklist := x :: st.worklist, visited := st.visited.insert x }

/-- The "near" component of a returned `(in, out)` pair: `in` for
Definitely-Reachable, `out` for Definitely-Reaching. -/
def nearOf : Dir → Dict × Dict → Dict
  | .reachable, pr => pr.1
  | .reaching, pr => pr.2

/-- The "far" component of a returned `(in, out)` pair: `out` for
Definitely-Reachable, `in` for Definitely-Reaching. -/
def farOf : Dir → Dict × Dict → Dict
  | .reachable, pr => pr.2
  | .reaching, pr => pr.1

/-- The node category seeded by each direction. -/
def seedTypeStr : Dir → String
  | .reachable => "Exit"
  | .reaching => "Entry"

/-! ### Concrete inputs used by counterexamples and witnesses -/

/-- The constantly-false predicate. -/
def pFalse : PatternCheck := fun _ _ => false

/-- The constantly-true predicate. -/
def pTrue : PatternCheck := fun _ _ => true

/-- A CFG whose single node has id `0` and type `Exit`, with no edges. -/
def cfgZero : CFG := ⟨[0], fun _ => "Exit", fun _ => [], fun _ => []⟩

/-- A single isolated node with id `7` typed `Exit`. -/
def cfgIso : CFG := ⟨[7], fun _ => "Exit", fun _ => [], fun _ => []⟩

/-- A single isolated node with id `7` typed `Entry`. -/
def cfgIsoEntry : CFG := ⟨[7], fun _ => "Entry", fun _ => [], fun _ => []⟩

/-- A malformed CFG: node `1` (typed `Exit`) has the parent `2`, which is
not in `get_node_ids`. -/
def cfgBadAdj : CFG := ⟨[1], fun _ => "Exit", fun _ => [2], fun _ => []⟩

/-- The linear chain `1 (Entry) → 2 → 3 (Exit)`, well-formed. -/
def cfgChain : CFG :=
  ⟨[1, 2, 3],
    fun n => if n = 1 then "Entry" else if n = 3 then "Exit" else "Stmt",
    fun n => if n = 2 then [1] else if n = 3 then [2] else [],
    fun n => if n = 1 then [2] else if n = 2 then [3] else []⟩

/-- A CFG with one node of a category that is never seeded. -/
def cfgNoSeeds : CFG := ⟨[4], fun _ => "Stmt", fun _ => [], fun _ => []⟩

end PTFA

namespace Ptfa

open PTFA

/-- Method `DefinitelyPTFA.__call__` of src/ptfa.py (predicate bound at
construction, CFG passed to the call): reset state, seed, drain with
`while self.worklist`, return `(self.in_dict, self.out_dict)`. -/
def call (d : Dir) (check_pattern : PatternCheck) (cfg : CFG) : RunRes :=
  match runSeeds (drainP d cfg check_pattern) d (fuelOf cfg)
      (seedsOf d cfg) (initSt cfg) with
  | .ok st => .ok (st.in_dict, st.out_dict)
  | .err e => .err e
  | .out => .out

end Ptfa

namespace Main

open PTFA

/-- Method `DefinitelyPTFA.__call__` of src/main.py (CFG bound at construction,
predicate passed to the call): identical to src/ptfa.py except the inner
loop `while nid := self.worklist.pop()` under `suppress(IndexError)`. -/
def call (d : Dir) (cfg : CFG) (check_pattern : PatternCheck) : RunRes :=
  match runSeeds (drainM d cfg check_pattern) d (fuelOf cfg)
      (seedsOf d cfg) (initSt cfg) with
  | .ok st => .ok (st.in_dict, st.out_dict)
  | .err e => .err e
  | .out => .out

end Main

namespace PTFA

/-! ### Association-list dictionary lemmas -/

theorem Dict.lookup_set (d : Dict) (k : Nat) (v : Bool) (k' : Nat) :
    (d.set k v).lookup k' = if k = k' then some v else d.lookup k' := by
  induction d with
  | nil => by_cases h : k = k' <;> simp [Dict.set, Dict.lookup, h]
  | cons kv rest ih =>
      obtain ⟨k₀, v₀⟩ := kv
      by_cases h₀ : k₀ = k
      · subst h₀
        by_cases h : k₀ = k' <;> simp [Dict.set, Dict.lookup, h]
      · by_cases h : k₀ = k'
        · subst h
          have h' : ¬k = k₀ := fun hh => h₀ hh.symm
          simp [Dict.set, Dict.lookup, h₀, h']
        · simp [Dict.set, Dict.lookup, h₀, h, ih]

theorem Dict.keys_nil : Dict.keys [] = [] := rfl

theorem Dict.keys_cons (k₀ : Nat) (v₀ : Bool) (rest : Dict) :
    Dict.keys ((k₀, v₀) :: rest) = k₀ :: Dict.keys rest := rfl

theorem Dict.mem_keys_iff (d : Dict) (k : Nat) :
    k ∈ d.keys ↔ (d.lookup k).isSome := by
  induction d with
  | nil =>
      rw [Dict.keys_nil]
      constructor
      · intro h; cases h
      · intro h; simp [Dict.lookup] at h
  | cons kv rest ih =>
      obtain ⟨k₀, v₀⟩ := kv
      rw [Dict.keys_cons]
      by_cases h : k₀ = k <;> simp [Dict.lookup, h, ih]
      exact fun hh => absurd hh.symm h

theorem Dict.keys_set_of_mem {d : Dict} {k : Nat} (h : k ∈ d.keys) (v : Bool) :
    (d.set k v).keys = d.keys := by
  induction d with
  | nil => rw [Dict.keys_nil] at h; simp at h
  | cons kv rest ih =>
      obtain ⟨k₀, v₀⟩ := kv
      by_cases h₀ : k₀ = k
      · simp [Dict.set, Dict.keys_cons, h₀]
      · rw [Dict.keys_cons] at h
        rcases List.mem_cons.mp h with rfl | h
        · exact absurd rfl h₀
        · simp [Dict.set, h₀, Dict.keys_cons, ih h]

theorem Dict.set_lookup_self {d : Dict} {k : Nat} {v : Bool}
    (h : d.lookup k = some v) : d.set k v = d := by
  induction d with
  | nil => simp [Dict.lookup] at h
  | cons kv rest ih =>
      obtain ⟨k₀, v₀⟩ := kv
      by_cases h₀ : k₀ = k
      · subst h₀
        simp [Dict.lookup] at h
        simp [Dict.set, h]
      · simp [Dict.lookup, h₀] at h
        simp [Dict.set, h₀, ih h]

theorem Dict.length_set_of_mem {d : Dict} {k : Nat} (h : k ∈ d.keys) (v : Bool) :
    (d.set k v).length = d.length := by
  induction d with
  | nil => rw [Dict.keys_nil] at h; simp at h
  | cons kv rest ih =>
      obtain ⟨k₀, v₀⟩ := kv
      by_cases h₀ : k₀ = k
      · simp [Dict.set, h₀]
      · rw [Dict.keys_cons] at h
        rcases List.mem_cons.mp h with rfl | h
        · exact absurd rfl h₀
        · simp [Dict.set, h₀, ih h]

theorem countTrue_le_length (d : Dict) : countTrue d ≤ d.length :=
  List.countP_le_length _

theorem countTrue_set_false_le (d : Dict) (k : Nat) :
    countTrue (d.set k false) ≤ countTrue d := by
  induction d with
  | nil => simp [Dict.set, countTrue]
  | cons kv rest ih =>
      obtain ⟨k₀, v₀⟩ := kv
      by_cases h₀ : k₀ = k <;>
        simp [Dict.set, h₀, countTrue, List.countP_cons] at ih ⊢ <;> omega

theorem countTrue_set_false_lt {d : Dict} {k : Nat}
    (h : d.lookup k = some true) :
    countTrue (d.set k false) + 1 ≤ countTrue d := by
  induction d with
  | nil => simp [Dict.lookup] at h
  | cons kv rest ih =>
      obtain ⟨k₀, v₀⟩ := kv
      by_cases h₀ : k₀ = k
      · subst h₀
        simp [Dict.lookup] at h
        simp [Dict.set, countTrue, List.countP_cons, h]
      · simp [Dict.lookup, h₀] at h
        simp [Dict.set, h₀, countTrue, List.countP_cons] at ih ⊢
        have := ih h
        omega

theorem DictLE_refl (d : Dict) : DictLE d d :=
  fun n v h => ⟨v, h, Or.inl rfl⟩

theorem DictLE_trans {d₁ d₂ d₃ : Dict} (h₁ : DictLE d₁ d₂) (h₂ : DictLE d₂ d₃) :
    DictLE d₁ d₃ := by
  intro n v h
  obtain ⟨v₂, hl₂, hv₂⟩ := h₂ n v h
  obtain ⟨v₁, hl₁, hv₁⟩ := h₁ n v₂ hl₂
  refine ⟨v₁, hl₁, ?_⟩
  rcases hv₂ with rfl | ⟨rfl, rfl⟩ <;> rcases hv₁ with rfl | ⟨h', rfl⟩ <;> simp_all

theorem DictLE.set {d : Dict} {k : Nat} {v : Bool}
    (h : ∀ ov, d.lookup k = some ov → v = ov ∨ (ov = true ∧ v = false)) :
    DictLE (d.set k v) d := by
  intro n ov hn
  rw [Dict.lookup_set]
  by_cases hk : k = n
  · subst hk
    exact ⟨v, by simp, h ov hn⟩
  · exact ⟨ov, by simp [hk, hn], Or.inl rfl⟩

theorem DictLE.set_false (d : Dict) (k : Nat) : DictLE (d.set k false) d :=
  DictLE.set (fun ov _ => by cases ov <;> simp)

theorem DictLE.false_persist {d' d : Dict} (h : DictLE d' d) {n : Nat}
    (hf : d.lookup n = some false) : d'.lookup n = some false := by
  obtain ⟨v', hl, hv⟩ := h n false hf
  rcases hv with rfl | ⟨h', rfl⟩ <;> simp_all

/-! ### Initial dictionary -/

theorem initDict_go (ids : List Nat) (d : Dict) (n : Nat) :
    (ids.foldl (fun d k => d.set k true) d).lookup n =
      if n ∈ ids then some true else d.lookup n := by
  induction ids generalizing d with
  | nil => simp
  | cons k rest ih =>
      by_cases h : n = k
      · subst h
        simp [ih, Dict.lookup_set]
      · have h' : ¬k = n := fun hh => h hh.symm
        simp only [List.foldl, ih, Dict.lookup_set, List.mem_cons]
        by_cases hr : n ∈ rest <;> simp [hr, h, h']

theorem lookup_initDict (ids : List Nat) (n : Nat) :
    (initDict ids).lookup n = if n ∈ ids then some true else none := by
  simpa [initDict, Dict.lookup] using initDict_go ids [] n

theorem mem_dkeys (cfg : CFG) (n : Nat) :
    n ∈ dkeys cfg ↔ n ∈ cfg.get_node_ids := by
  rw [dkeys, Dict.mem_keys_iff, lookup_initDict]
  by_cases h : n ∈ cfg.get_node_ids <;> simp [h]

theorem contains_iff (l : List Nat) (a : Nat) : l.contains a = true ↔ a ∈ l := by
  simp [List.contains]

/-! ### The near/far view of the two analysis directions

`DefinitelyReachablePTFA` and `DefinitelyReachingPTFA` are mirror images:
the dictionary written by `check_node` (in for Reachable, out for Reaching)
is the "near" side, the one read there and written by `propagate` is the
"far" side. -/

@[simp] theorem nearD_withNear (d : Dir) (st : St) (x : Dict) :
    d.nearD (d.withNear st x) = x := by cases d <;> rfl

@[simp] theorem farD_withNear (d : Dir) (st : St) (x : Dict) :
    d.farD (d.withNear st x) = d.farD st := by cases d <;> rfl

@[simp] theorem nearD_withFar (d : Dir) (st : St) (x : Dict) :
    d.nearD (d.withFar st x) = d.nearD st := by cases d <;> rfl

@[simp] theorem farD_withFar (d : Dir) (st : St) (x : Dict) :
    d.farD (d.withFar st x) = x := by cases d <;> rfl

@[simp] theorem visited_withNear (d : Dir) (st : St) (x : Dict) :
    (d.withNear st x).visited = st.visited := by cases d <;> rfl

@[simp] theorem worklist_withNear (d : Dir) (st : St) (x : Dict) :
    (d.withNear st x).worklist = st.worklist := by cases d <;> rfl

@[simp] theorem visited_withFar (d : Dir) (st : St) (x : Dict) :
    (d.withFar st x).visited = st.visited := by cases d <;> rfl

@[simp] theorem worklist_withFar (d : Dir) (st : St) (x : Dict) :
    (d.withFar st x).worklist = st.worklist := by cases d <;> rfl

theorem check_node_eq (d : Dir) (cfg : CFG) (p : PatternCheck) (st : St) (nid : Nat) :
    check_node d cfg p st nid =
      match (d.farD st).lookup nid with
      | none => .error (.keyError .checkNode nid)
      | some fv => .ok (d.withNear st ((d.nearD st).set nid (fv || p cfg nid))) := by
  cases d <;> rfl

theorem can_propagate_eq (d : Dir) (st : St) (nid nx : Nat) :
    can_propagate d st nid nx =
      match (d.nearD st).lookup nid with
      | none => .error (.keyError .guardNear nid)
      | some nv =>
          match (d.farD st).lookup nx with
          | none => .error (.keyError .guardFar nx)
          | some fv => .ok (bLT nv fv) := by
  cases d <;> rfl

theorem propagate_eq (d : Dir) (st : St) (nid nx : Nat) :
    propagate d st nid nx =
      match (d.nearD st).lookup nid with
      | none => .error (.keyError .propRead nid)
      | some v => .ok (d.withFar st ((d.farD st).set nx v)) := by
  cases d <;> rfl

theorem applySeed_eq (d : Dir) (st : St) (s : Nat) :
    applySeed d st s =
      { d.withFar st ((d.farD st).set s false) with
          visited := st.visited.insert s, worklist := s :: st.worklist } := by
  cases d <;> rfl

/-! ### Measures and orderings on states -/

theorem Tm_near_far (d : Dir) (st : St) :
    Tm st = countTrue (d.nearD st) + countTrue (d.farD st) := by
  cases d <;> simp [Tm, Dir.nearD, Dir.farD, Nat.add_comm]

theorem StLE_refl (st : St) : StLE st st := ⟨DictLE_refl _, DictLE_refl _⟩

theorem StLE_trans {st₁ st₂ st₃ : St} (h₁ : StLE st₁ st₂) (h₂ : StLE st₂ st₃) :
    StLE st₁ st₃ := ⟨DictLE_trans h₁.1 h₂.1, DictLE_trans h₁.2 h₂.2⟩

theorem StLE_of_near_far (d : Dir) {st' st : St}
    (hn : DictLE (d.nearD st') (d.nearD st)) (hf : DictLE (d.farD st') (d.farD st)) :
    StLE st' st := by
  cases d
  · exact ⟨hn, hf⟩
  · exact ⟨hf, hn⟩

theorem WF.nexts {cfg : CFG} (h : WF cfg) (d : Dir) {n : Nat}
    (hn : n ∈ cfg.get_node_ids) : ∀ x ∈ next_nodes d cfg n, x ∈ cfg.get_node_ids := by
  cases d
  · exact (h n hn).1
  · exact (h n hn).2

/-! ### The loop invariant -/

theorem Inv.toFInv {d : Dir} {cfg : CFG} {p : PatternCheck} {st : St}
    (h : Inv d cfg p st) (nid : Nat) (l : List Nat) : FInv d cfg p nid l st :=
  { h with
    fixB := fun n hn hwl nx hnx hnear hk =>
      Or.inl ((h.fixB n hn hwl nx hnx hnear hk).resolve_right (by simp)) }

theorem FInv.toInv {d : Dir} {cfg : CFG} {p : PatternCheck} {nid : Nat} {st : St}
    (h : FInv d cfg p nid [] st) : Inv d cfg p st :=
  { h with
    fixB := fun n hn hwl nx hnx hnear hk =>
      Or.inl ((h.fixB n hn hwl nx hnx hnear hk).resolve_right (by simp)) }

/-! ### Small facts about the boolean guard and state updates -/

theorem bLT_eq_true {a b : Bool} : bLT a b = true ↔ a = false ∧ b = true := by
  cases a <;> cases b <;> simp [bLT]

theorem bLT_false_left (b : Bool) : bLT false b = b := by cases b <;> rfl

@[simp] theorem nearD_update (d : Dir) (st : St) (w v : List Nat) :
    d.nearD { st with worklist := w, visited := v } = d.nearD st := by
  cases d <;> rfl

@[simp] theorem farD_update (d : Dir) (st : St) (w v : List Nat) :
    d.farD { st with worklist := w, visited := v } = d.farD st := by
  cases d <;> rfl

theorem withFar_self (d : Dir) (st : St) : d.withFar st (d.farD st) = st := by
  cases d <;> rfl

theorem can_propagate_ok {d : Dir} {st : St} {nid nx : Nat} {b : Bool}
    (h : can_propagate d st nid nx = .ok b) :
    ∃ nv fv, (d.nearD st).lookup nid = some nv ∧
      (d.farD st).lookup nx = some fv ∧ b = bLT nv fv := by
  rw [can_propagate_eq] at h
  cases hn : (d.nearD st).lookup nid with
  | none => rw [hn] at h; cases h
  | some nv =>
      cases hf : (d.farD st).lookup nx with
      | none => rw [hn, hf] at h; cases h
      | some fv =>
          rw [hn, hf] at h
          cases h
          exact ⟨nv, fv, rfl, rfl, rfl⟩

theorem countP_unvis_insert_le (ks vis : List Nat) (x : Nat) :
    ks.countP (fun n => decide (n ∉ vis.insert x)) ≤
      ks.countP (fun n => decide (n ∉ vis)) := by
  refine List.countP_mono_left (fun a _ h => ?_)
  simp only [decide_eq_true_eq] at h ⊢
  exact fun hmem => h (List.mem_insert_iff.mpr (Or.inr hmem))

theorem countP_unvis_insert_lt {ks : List Nat} (vis : List Nat) {x : Nat}
    (hx : x ∈ ks) (hnx : x ∉ vis) :
    ks.countP (fun n => decide (n ∉ vis.insert x)) + 1 ≤
      ks.countP (fun n => decide (n ∉ vis)) := by
  induction ks with
  | nil => cases hx
  | cons k ks ih =>
      by_cases hxk : x = k
      · subst hxk
        have h1 : decide (x ∉ vis) = true := decide_eq_true hnx
        have h2 : decide (x ∉ vis.insert x) = false := by
          simp [List.mem_insert_iff]
        rw [List.countP_cons, List.countP_cons, h1, h2]
        have := countP_unvis_insert_le ks vis x
        simp only [Bool.false_eq_true, if_false, if_true]
        omega
      · have hkx : ¬k = x := fun h => hxk h.symm
        have heads : (decide (k ∉ vis.insert x)) = (decide (k ∉ vis)) := by
          apply decide_eq_decide.mpr
          simp [List.mem_insert_iff, hkx]
        rcases List.mem_cons.mp hx with rfl | hmem
        · exact absurd rfl hxk
        · rw [List.countP_cons, List.countP_cons, heads]
          have := ih hmem
          omega

/-! ### Invariant preservation through one propagation step -/

@[simp] theorem stPush_worklist (d : Dir) (st : St) (x : Nat) (v : Bool) :
    (stPush d st x v).worklist = x :: st.worklist := rfl

@[simp] theorem stPush_visited (d : Dir) (st : St) (x : Nat) (v : Bool) :
    (stPush d st x v).visited = st.visited.insert x := rfl

@[simp] theorem nearD_stPush (d : Dir) (st : St) (x : Nat) (v : Bool) :
    d.nearD (stPush d st x v) = d.nearD st := by cases d <;> rfl

@[simp] theorem farD_stPush (d : Dir) (st : St) (x : Nat) (v : Bool) :
    d.farD (stPush d st x v) = (d.farD st).set x v := by cases d <;> rfl

theorem FInv.push_far {d : Dir} {cfg : CFG} {p : PatternCheck} {nid x : Nat}
    {rest : List Nat} {st : St} {v : Bool}
    (h : FInv d cfg p nid (x :: rest) st)
    (hx : x ∈ dkeys cfg)
    (hnv : (d.nearD st).lookup nid = some v)
    (hcase : v = false ∨ (d.farD st).lookup x = some v) :
    FInv d cfg p nid rest (stPush d st x v) := by
  have hfark : x ∈ (d.farD st).keys := h.keys_far ▸ hx
  refine ⟨?_, ?_, ?_, ?_, ?_, ?_, ?_, ?_⟩
  · rw [nearD_stPush]
    exact h.keys_near
  · rw [farD_stPush, Dict.keys_set_of_mem hfark, h.keys_far]
  · intro y hy
    rw [stPush_worklist] at hy
    rcases List.mem_cons.mp hy with rfl | hy
    · exact hx
    · exact h.wl_keys y hy
  · intro y hy
    rw [stPush_worklist] at hy
    rw [stPush_visited]
    rcases List.mem_cons.mp hy with rfl | hy
    · exact List.mem_insert_iff.mpr (Or.inl rfl)
    · exact List.mem_insert_iff.mpr (Or.inr (h.wl_vis y hy))
  · intro n hn hnvis
    rw [stPush_visited] at hnvis
    have hnx : ¬n = x := fun he => hnvis (List.mem_insert_iff.mpr (Or.inl he))
    have hnv' : n ∉ st.visited := fun he => hnvis (List.mem_insert_iff.mpr (Or.inr he))
    obtain ⟨h1, h2⟩ := h.unvis n hn hnv'
    rw [nearD_stPush, farD_stPush]
    constructor
    · exact h1
    · rw [Dict.lookup_set, if_neg (fun he : x = n => hnx he.symm)]
      exact h2
  · intro n hn
    rw [nearD_stPush] at hn
    obtain ⟨hf, hp⟩ := h.nearFalse n hn
    refine ⟨?_, hp⟩
    rw [farD_stPush, Dict.lookup_set]
    by_cases hxn : x = n
    · subst hxn
      rcases hcase with rfl | hcv
      · simp
      · rw [hcv] at hf
        rw [if_pos rfl]
        exact hf
    · rw [if_neg hxn]
      exact hf
  · intro n hn hwl
    rw [stPush_worklist] at hwl
    have hnx : ¬n = x := fun he => hwl (he ▸ List.mem_cons_self n st.worklist)
    have hnwl : n ∉ st.worklist := fun he => hwl (List.mem_cons_of_mem x he)
    obtain ⟨fv, hfv, hnear⟩ := h.fixA n hn hnwl
    rw [nearD_stPush, farD_stPush]
    refine ⟨fv, ?_, hnear⟩
    rw [Dict.lookup_set, if_neg (fun he : x = n => hnx he.symm)]
    exact hfv
  · intro n hn hwl nx hnx hnear hnk
    rw [stPush_worklist] at hwl
    have hnwl : n ∉ st.worklist := fun he => hwl (List.mem_cons_of_mem x he)
    rw [nearD_stPush] at hnear
    have hold := h.fixB n hn hnwl nx hnx hnear hnk
    rw [farD_stPush, Dict.lookup_set]
    rcases hold with hfalse | ⟨rfl, hmem⟩
    · by_cases hxnx : x = nx
      · subst hxnx
        left
        rw [if_pos rfl]
        rcases hcase with rfl | hcv
        · rfl
        · rw [hcv] at hfalse
          exact hfalse
      · left
        rw [if_neg hxnx]
        exact hfalse
    · rcases List.mem_cons.mp hmem with rfl | hmem'
      · left
        rw [if_pos rfl]
        rw [hnv] at hnear
        rw [Option.some.inj hnear]
      · exact Or.inr ⟨rfl, hmem'⟩

theorem FInv.tail {d : Dir} {cfg : CFG} {p : PatternCheck} {nid x : Nat}
    {rest : List Nat} {st : St}
    (h : FInv d cfg p nid (x :: rest) st)
    (hfar : (d.nearD st).lookup nid = some false → (d.farD st).lookup x = some false) :
    FInv d cfg p nid rest st := by
  refine ⟨h.keys_near, h.keys_far, h.wl_keys, h.wl_vis, h.unvis, h.nearFalse, h.fixA, ?_⟩
  intro n hn hwl nx hnx hnear hnk
  rcases h.fixB n hn hwl nx hnx hnear hnk with hfalse | ⟨rfl, hmem⟩
  · exact Or.inl hfalse
  · rcases List.mem_cons.mp hmem with rfl | hmem'
    · exact Or.inl (hfar hnear)
    · exact Or.inr ⟨rfl, hmem'⟩

/-- The taken branch never increases the measure: either the guard fired
(a `True` far fact became `False`) or the neighbor was unvisited (so the
unvisited count drops); both pay for the new worklist entry. -/
theorem stPush_phi {d : Dir} {cfg : CFG} {st : St} {x : Nat} {v : Bool}
    (hc : ((d.farD st).lookup x = some true ∧ v = false) ∨
      (x ∈ dkeys cfg ∧ x ∉ st.visited ∧ (d.farD st).lookup x = some v)) :
    Um cfg (stPush d st x v) + Tm (stPush d st x v) +
      (stPush d st x v).worklist.length ≤
      Um cfg st + Tm st + st.worklist.length := by
  have hlen : (stPush d st x v).worklist.length = st.worklist.length + 1 := by
    rw [stPush_worklist, List.length_cons]
  have hTm : Tm (stPush d st x v) =
      countTrue (d.nearD st) + countTrue ((d.farD st).set x v) := by
    rw [Tm_near_far d, nearD_stPush, farD_stPush]
  have hTmst : Tm st = countTrue (d.nearD st) + countTrue (d.farD st) :=
    Tm_near_far d st
  rcases hc with ⟨hfv, rfl⟩ | ⟨hx, hvis, hfv⟩
  · have h1 : countTrue ((d.farD st).set x false) + 1 ≤ countTrue (d.farD st) :=
      countTrue_set_false_lt hfv
    have h2 : Um cfg (stPush d st x false) ≤ Um cfg st :=
      countP_unvis_insert_le (dkeys cfg) st.visited x
    omega
  · have h1 : (d.farD st).set x v = d.farD st := Dict.set_lookup_self hfv
    have h2 : Um cfg (stPush d st x v) + 1 ≤ Um cfg st :=
      countP_unvis_insert_lt st.visited hx hvis
    rw [h1] at hTm
    omega

/-- The taken branch only lowers facts. -/
theorem stPush_le {d : Dir} {st : St} {x : Nat} {v : Bool}
    (hc : v = false ∨ (d.farD st).lookup x = some v) :
    StLE (stPush d st x v) st := by
  refine StLE_of_near_far d ?_ ?_
  · rw [nearD_stPush]
    exact DictLE_refl _
  · rw [farD_stPush]
    rcases hc with rfl | hcv
    · exact DictLE.set_false _ _
    · rw [Dict.set_lookup_self hcv]
      exact DictLE_refl _

/-- Full specification of the propagation loop over the successors of the
node being processed: invariant restoration, measure non-increase, pointwise
fact decrease, worklist growth, and the only possible error source (a
successor id outside the node-id set). -/
theorem foldNexts_spec (d : Dir) (cfg : CFG) (p : PatternCheck) (nid : Nat)
    (hnid : nid ∈ dkeys cfg) :
    ∀ (l : List Nat) (st : St), FInv d cfg p nid l st →
      (∀ st', foldNexts d st nid l = .ok st' →
          FInv d cfg p nid [] st' ∧
          Um cfg st' + Tm st' + st'.worklist.length ≤
            Um cfg st + Tm st + st.worklist.length ∧
          StLE st' st ∧
          (∀ y ∈ st'.worklist, y ∈ st.worklist ∨ y ∈ l)) ∧
      (∀ e, foldNexts d st nid l = .error e → ∃ y ∈ l, y ∉ dkeys cfg) := by
  intro l
  induction l with
  | nil =>
      intro st hI
      constructor
      · intro st' hok
        cases hok
        exact ⟨hI, Nat.le_refl _, StLE_refl st, fun y hy => Or.inl hy⟩
      · intro e he
        cases he
  | cons x rest ih =>
      intro st hI
      have hnearSome : ∃ nv, (d.nearD st).lookup nid = some nv := by
        have hmemk : nid ∈ (d.nearD st).keys := hI.keys_near ▸ hnid
        rw [Dict.mem_keys_iff] at hmemk
        exact Option.isSome_iff_exists.mp hmemk
      cases hcp : can_propagate d st nid x with
      | error e =>
          have hfold : foldNexts d st nid (x :: rest) = .error e := by
            rw [foldNexts, hcp]
          constructor
          · intro st' hok
            rw [hfold] at hok
            cases hok
          · intro e' _
            obtain ⟨nv, hnv⟩ := hnearSome
            rw [can_propagate_eq, hnv] at hcp
            cases hflo : (d.farD st).lookup x with
            | some fv => rw [hflo] at hcp; cases hcp
            | none =>
                refine ⟨x, List.mem_cons_self x rest, fun hxk => ?_⟩
                have hxx : x ∈ (d.farD st).keys := hI.keys_far ▸ hxk
                rw [Dict.mem_keys_iff, hflo] at hxx
                cases hxx
      | ok b =>
          obtain ⟨nv, fv, hnv, hfv, rfl⟩ := can_propagate_ok hcp
          have hx : x ∈ dkeys cfg := by
            rw [← hI.keys_far, Dict.mem_keys_iff, hfv]
            rfl
          by_cases hbr : (bLT nv fv || !(st.visited.contains x)) = true
          · -- branch taken: propagate, push, mark visited
            have hpr : propagate d st nid x =
                .ok (d.withFar st ((d.farD st).set x nv)) := by
              rw [propagate_eq, hnv]
            have hfold : foldNexts d st nid (x :: rest) =
                foldNexts d (stPush d st x nv) nid rest := by
              rw [foldNexts, hcp]
              simp only [hbr, if_true, hpr, visited_withFar, worklist_withFar]
              rfl
            have hguards :
                (((d.farD st).lookup x = some true ∧ nv = false) ∨
                  (x ∈ dkeys cfg ∧ x ∉ st.visited ∧
                    (d.farD st).lookup x = some nv)) ∧
                (nv = false ∨ (d.farD st).lookup x = some nv) := by
              cases hg : bLT nv fv with
              | true =>
                  obtain ⟨hnvf, hfvt⟩ := bLT_eq_true.mp hg
                  subst hnvf
                  subst hfvt
                  exact ⟨Or.inl ⟨hfv, rfl⟩, Or.inl rfl⟩
              | false =>
                  have hcont : st.visited.contains x = false := by
                    cases hc : st.visited.contains x
                    · rfl
                    · rw [hg, hc] at hbr
                      simp at hbr
                  have hxvis : x ∉ st.visited := by
                    intro hmem
                    rw [← contains_iff] at hmem
                    rw [hmem] at hcont
                    cases hcont
                  have hfvt : fv = true := by
                    have h2 := (hI.unvis x hx hxvis).2
                    rw [hfv] at h2
                    exact Option.some.inj h2
                  subst hfvt
                  have hnvt : nv = true := by
                    cases nv
                    · rw [bLT] at hg
                      simp at hg
                    · rfl
                  subst hnvt
                  exact ⟨Or.inr ⟨hx, hxvis, hfv⟩, Or.inr hfv⟩
            have hI₂ : FInv d cfg p nid rest (stPush d st x nv) :=
              hI.push_far hx hnv hguards.2
            have hphi := @stPush_phi d cfg st x nv hguards.1
            have hstle := @stPush_le d st x nv hguards.2
            obtain ⟨ihok, iherr⟩ := ih (stPush d st x nv) hI₂
            constructor
            · intro st' hok
              rw [hfold] at hok
              obtain ⟨hF, hm, hle, hwl⟩ := ihok st' hok
              refine ⟨hF, hm.trans hphi, StLE_trans hle hstle, ?_⟩
              intro y hy
              rcases hwl y hy with hy' | hy'
              · rw [stPush_worklist] at hy'
                rcases List.mem_cons.mp hy' with rfl | hy''
                · exact Or.inr (List.mem_cons_self y rest)
                · exact Or.inl hy''
              · exact Or.inr (List.mem_cons_of_mem x hy')
            · intro e he
              rw [hfold] at he
              obtain ⟨y, hy, hyk⟩ := iherr e he
              exact ⟨y, List.mem_cons_of_mem x hy, hyk⟩
          · -- branch not taken: guard false and already visited
            have hg : bLT nv fv = false := by
              cases hgg : bLT nv fv
              · rfl
              · rw [hgg] at hbr
                simp at hbr
            have hfold : foldNexts d st nid (x :: rest) =
                foldNexts d st nid rest := by
              rw [foldNexts, hcp]
              simp only [hg]
              rw [if_neg (by simpa [hg] using hbr)]
            have hI' : FInv d cfg p nid rest st := by
              refine hI.tail (fun hnear => ?_)
              rw [hnv] at hnear
              have hnvf : nv = false := Option.some.inj hnear
              subst hnvf
              rw [bLT_false_left] at hg
              subst hg
              exact hfv
            obtain ⟨ihok, iherr⟩ := ih st hI'
            constructor
            · intro st' hok
              rw [hfold] at hok
              obtain ⟨hF, hm, hle, hwl⟩ := ihok st' hok
              refine ⟨hF, hm, hle, ?_⟩
              intro y hy
              rcases hwl y hy with hy' | hy'
              · exact Or.inl hy'
              · exact Or.inr (List.mem_cons_of_mem x hy')
            · intro e he
              rw [hfold] at he
              obtain ⟨y, hy, hyk⟩ := iherr e he
              exact ⟨y, List.mem_cons_of_mem x hy, hyk⟩

theorem nearD_congr (d : Dir) {st st' : St} (h1 : st.in_dict = st'.in_dict)
    (h2 : st.out_dict = st'.out_dict) : d.nearD st = d.nearD st' := by
  cases d <;> simp [Dir.nearD, h1, h2]

theorem farD_congr (d : Dir) {st st' : St} (h1 : st.in_dict = st'.in_dict)
    (h2 : st.out_dict = st'.out_dict) : d.farD st = d.farD st' := by
  cases d <;> simp [Dir.farD, h1, h2]

/-- Specification of one full iteration of the inner while loop: after the
pop of `nid`, `check_node` plus the propagation loop restore the invariant
and strictly decrease the measure; the only error source is a successor id
outside the node-id set. -/
theorem processNode_spec (d : Dir) (cfg : CFG) (p : PatternCheck)
    (vis rest : List Nat) (ind outd : Dict) (nid : Nat)
    (hI : Inv d cfg p ⟨vis, nid :: rest, ind, outd⟩) :
    (∀ st', processNode d cfg p ⟨vis, rest, ind, outd⟩ nid = .ok st' →
        Inv d cfg p st' ∧
        Um cfg st' + Tm st' + st'.worklist.length + 1 ≤
          Um cfg ⟨vis, nid :: rest, ind, outd⟩ +
            Tm ⟨vis, nid :: rest, ind, outd⟩ + (nid :: rest).length ∧
        StLE st' ⟨vis, nid :: rest, ind, outd⟩ ∧
        (∀ y ∈ st'.worklist, y ∈ rest ∨ y ∈ next_nodes d cfg nid)) ∧
    (∀ e, processNode d cfg p ⟨vis, rest, ind, outd⟩ nid = .error e →
        ∃ y ∈ next_nodes d cfg nid, y ∉ dkeys cfg) := by
  have hnid : nid ∈ dkeys cfg :=
    hI.wl_keys nid (List.mem_cons_self nid rest)
  have hnvis : nid ∈ vis :=
    hI.wl_vis nid (List.mem_cons_self nid rest)
  have hnearP : d.nearD ⟨vis, rest, ind, outd⟩ =
      d.nearD ⟨vis, nid :: rest, ind, outd⟩ := nearD_congr d rfl rfl
  have hfarP : d.farD ⟨vis, rest, ind, outd⟩ =
      d.farD ⟨vis, nid :: rest, ind, outd⟩ := farD_congr d rfl rfl
  -- the far fact of nid is present
  have hfvSome : ∃ fv, (d.farD ⟨vis, nid :: rest, ind, outd⟩).lookup nid = some fv := by
    have hmemk : nid ∈ (d.farD ⟨vis, nid :: rest, ind, outd⟩).keys :=
      hI.keys_far ▸ hnid
    rw [Dict.mem_keys_iff] at hmemk
    exact Option.isSome_iff_exists.mp hmemk
  obtain ⟨fv, hfv⟩ := hfvSome
  have hovSome : ∃ ov, (d.nearD ⟨vis, nid :: rest, ind, outd⟩).lookup nid = some ov := by
    have hmemk : nid ∈ (d.nearD ⟨vis, nid :: rest, ind, outd⟩).keys :=
      hI.keys_near ▸ hnid
    rw [Dict.mem_keys_iff] at hmemk
    exact Option.isSome_iff_exists.mp hmemk
  obtain ⟨ov, hov⟩ := hovSome
  -- the value written by check_node
  have hchk : check_node d cfg p ⟨vis, rest, ind, outd⟩ nid =
      .ok (d.withNear ⟨vis, rest, ind, outd⟩
        ((d.nearD ⟨vis, rest, ind, outd⟩).set nid (fv || p cfg nid))) := by
    rw [check_node_eq, hfarP, hfv]
  -- when the written value is true, the old value was already true
  have hval : (fv || p cfg nid) = false ∨ ov = (fv || p cfg nid) := by
    cases hovv : ov
    · obtain ⟨hff, hpf⟩ := hI.nearFalse nid (hovv ▸ hov)
      rw [hfv] at hff
      left
      rw [Option.some.inj hff, hpf]
      rfl
    · cases hw : (fv || p cfg nid)
      · exact Or.inl rfl
      · exact Or.inr rfl
  -- the invariant after check_node, with the successors still pending
  have hIC : FInv d cfg p nid (next_nodes d cfg nid)
      (d.withNear ⟨vis, rest, ind, outd⟩
        ((d.nearD ⟨vis, rest, ind, outd⟩).set nid (fv || p cfg nid))) := by
    have hnk : nid ∈ (d.nearD ⟨vis, rest, ind, outd⟩).keys := by
      rw [hnearP, hI.keys_near]
      exact hnid
    refine ⟨?_, ?_, ?_, ?_, ?_, ?_, ?_, ?_⟩
    · rw [nearD_withNear, Dict.keys_set_of_mem hnk, hnearP, hI.keys_near]
    · rw [farD_withNear, hfarP, hI.keys_far]
    · intro y hy
      rw [worklist_withNear] at hy
      exact hI.wl_keys y (List.mem_cons_of_mem nid hy)
    · intro y hy
      rw [worklist_withNear] at hy
      rw [visited_withNear]
      exact hI.wl_vis y (List.mem_cons_of_mem nid hy)
    · intro n hn hnv
      rw [visited_withNear] at hnv
      have hne : ¬nid = n := fun he => hnv (he ▸ hnvis)
      obtain ⟨h1, h2⟩ := hI.unvis n hn hnv
      rw [nearD_withNear, farD_withNear, Dict.lookup_set, if_neg hne, hnearP, hfarP]
      exact ⟨h1, h2⟩
    · intro n hn
      rw [nearD_withNear, Dict.lookup_set] at hn
      rw [farD_withNear, hfarP]
      by_cases hne : nid = n
      · subst hne
        rw [if_pos rfl] at hn
        have hw : (fv || p cfg nid) = false := Option.some.inj hn
        have hfvf : fv = false := by
          cases fv
          · rfl
          · rw [Bool.true_or] at hw; cases hw
        have hpf : p cfg nid = false := by
          cases hp : p cfg nid
          · rfl
          · rw [hfvf, hp] at hw; cases hw
        exact ⟨hfvf ▸ hfv, hpf⟩
      · rw [if_neg hne, hnearP] at hn
        exact hI.nearFalse n hn
    · intro n hn hwl
      rw [worklist_withNear] at hwl
      rw [nearD_withNear, farD_withNear, Dict.lookup_set, hfarP]
      by_cases hne : nid = n
      · subst hne
        exact ⟨fv, hfv, by rw [if_pos rfl]⟩
      · have hnwl : n ∉ nid :: rest := by
          intro hmem
          rcases List.mem_cons.mp hmem with rfl | hmem'
          · exact hne rfl
          · exact hwl hmem'
        obtain ⟨fv', h1, h2⟩ := hI.fixA n hn hnwl
        refine ⟨fv', h1, ?_⟩
        rw [if_neg hne, hnearP]
        exact h2
    · intro n hn hwl nx hnx hnear hnk
      rw [worklist_withNear] at hwl
      by_cases hne : n = nid
      · exact Or.inr ⟨hne, hne ▸ hnx⟩
      · have hnwl : n ∉ nid :: rest := by
          intro hmem
          rcases List.mem_cons.mp hmem with rfl | hmem'
          · exact hne rfl
          · exact hwl hmem'
        rw [nearD_withNear, Dict.lookup_set,
          if_neg (fun he : nid = n => hne he.symm), hnearP] at hnear
        have hold := hI.fixB n hn hnwl nx hnx hnear hnk
        rcases hold with hfalse | ⟨rfl, hmem⟩
        · rw [farD_withNear, hfarP]
          exact Or.inl hfalse
        · cases hmem
  -- measure after check_node
  have hTmC : Tm (d.withNear ⟨vis, rest, ind, outd⟩
      ((d.nearD ⟨vis, rest, ind, outd⟩).set nid (fv || p cfg nid))) ≤
      Tm ⟨vis, nid :: rest, ind, outd⟩ := by
    rw [Tm_near_far d, nearD_withNear, farD_withNear,
      Tm_near_far d ⟨vis, nid :: rest, ind, outd⟩, hnearP, hfarP]
    have hcmp : countTrue ((d.nearD ⟨vis, nid :: rest, ind, outd⟩).set nid
        (fv || p cfg nid)) ≤ countTrue (d.nearD ⟨vis, nid :: rest, ind, outd⟩) := by
      rcases hval with hw | hw
      · rw [hw]
        exact countTrue_set_false_le _ _
      · rw [← hw, Dict.set_lookup_self hov]
    omega
  have hUmC : Um cfg (d.withNear ⟨vis, rest, ind, outd⟩
      ((d.nearD ⟨vis, rest, ind, outd⟩).set nid (fv || p cfg nid))) =
      Um cfg ⟨vis, nid :: rest, ind, outd⟩ := by
    cases d <;> rfl
  have hleC : StLE (d.withNear ⟨vis, rest, ind, outd⟩
      ((d.nearD ⟨vis, rest, ind, outd⟩).set nid (fv || p cfg nid)))
      ⟨vis, nid :: rest, ind, outd⟩ := by
    refine StLE_of_near_far d ?_ ?_
    · rw [nearD_withNear, hnearP]
      refine DictLE.set (fun ov' hov' => ?_)
      rw [hov] at hov'
      cases Option.some.inj hov'
      rcases hval with hw | hw
      · rw [hw]
        cases hovv : ov
        · exact Or.inl rfl
        · exact Or.inr ⟨rfl, rfl⟩
      · exact Or.inl hw.symm
    · rw [farD_withNear, hfarP]
      exact DictLE_refl _
  have hwlC : (d.withNear ⟨vis, rest, ind, outd⟩
      ((d.nearD ⟨vis, rest, ind, outd⟩).set nid (fv || p cfg nid))).worklist =
      rest := by
    rw [worklist_withNear]
  obtain ⟨fok, ferr⟩ := foldNexts_spec d cfg p nid hnid (next_nodes d cfg nid) _ hIC
  have hpn : processNode d cfg p ⟨vis, rest, ind, outd⟩ nid =
      foldNexts d (d.withNear ⟨vis, rest, ind, outd⟩
        ((d.nearD ⟨vis, rest, ind, outd⟩).set nid (fv || p cfg nid))) nid
        (next_nodes d cfg nid) := by
    rw [processNode, hchk]
  constructor
  · intro st' hok
    rw [hpn] at hok
    obtain ⟨hF, hm, hle, hwl⟩ := fok st' hok
    refine ⟨hF.toInv, ?_, StLE_trans hle hleC, ?_⟩
    · rw [hwlC, hUmC] at hm
      have := hTmC
      simp only [List.length_cons]
      omega
    · intro y hy
      rcases hwl y hy with hy' | hy'
      · rw [hwlC] at hy'
        exact Or.inl hy'
      · exact Or.inr hy'
  · intro e he
    rw [hpn] at he
    exact ferr e he

/-! ### The inner while loop of src/ptfa.py -/

/-- The bound `3 * |initDict|` dominates the measure of any invariant state
with an empty worklist. -/
theorem phi_bound {d : Dir} {cfg : CFG} {p : PatternCheck} {st : St}
    (hI : Inv d cfg p st) (hwl : st.worklist = []) :
    Um cfg st + Tm st + st.worklist.length ≤
      3 * (initDict cfg.get_node_ids).length := by
  have hdk : (dkeys cfg).length = (initDict cfg.get_node_ids).length := by
    rw [dkeys, Dict.keys, List.length_map]
  have hUm : Um cfg st ≤ (initDict cfg.get_node_ids).length := by
    rw [← hdk]
    exact List.countP_le_length _
  have hnlen : (d.nearD st).length = (initDict cfg.get_node_ids).length := by
    have h1 : (d.nearD st).keys.length = (dkeys cfg).length := by rw [hI.keys_near]
    rw [Dict.keys, List.length_map] at h1
    rw [h1, hdk]
  have hflen : (d.farD st).length = (initDict cfg.get_node_ids).length := by
    have h1 : (d.farD st).keys.length = (dkeys cfg).length := by rw [hI.keys_far]
    rw [Dict.keys, List.length_map] at h1
    rw [h1, hdk]
  have hTm : Tm st ≤ 2 * (initDict cfg.get_node_ids).length := by
    rw [Tm_near_far d]
    have h1 := countTrue_le_length (d.nearD st)
    have h2 := countTrue_le_length (d.farD st)
    omega
  rw [hwl]
  simp only [List.length_nil]
  omega

/-- Full specification of the src/ptfa.py inner loop: on `.ok` it restores
the invariant with an empty worklist and only lowers facts; it cannot run
out of fuel at or above the measure; under a well-formed CFG it cannot
raise. -/
theorem drainP_spec (d : Dir) (cfg : CFG) (p : PatternCheck) :
    ∀ (fuel : Nat) (st : St), Inv d cfg p st →
      (∀ st', drainP d cfg p fuel st = .ok st' →
          Inv d cfg p st' ∧ st'.worklist = [] ∧ StLE st' st) ∧
      (Um cfg st + Tm st + st.worklist.length ≤ fuel →
        drainP d cfg p fuel st ≠ .out) ∧
      (WF cfg → ∀ e, drainP d cfg p fuel st ≠ .err e) := by
  intro fuel
  induction fuel with
  | zero =>
      intro st hI
      obtain ⟨vis, wl, ind, outd⟩ := st
      cases wl with
      | nil =>
          refine ⟨?_, ?_, ?_⟩
          · intro st' hok
            cases hok
            exact ⟨hI, rfl, StLE_refl _⟩
          · intro _ h
            cases h
          · intro _ e h
            cases h
      | cons nid rest =>
          refine ⟨?_, ?_, ?_⟩
          · intro st' hok
            cases hok
          · intro hle
            simp only [List.length_cons] at hle
            omega
          · intro _ e h
            cases h
  | succ fuel ih =>
      intro st hI
      obtain ⟨vis, wl, ind, outd⟩ := st
      cases wl with
      | nil =>
          refine ⟨?_, ?_, ?_⟩
          · intro st' hok
            cases hok
            exact ⟨hI, rfl, StLE_refl _⟩
          · intro _ h
            cases h
          · intro _ e h
            cases h
      | cons nid rest =>
          obtain ⟨psok, pserr⟩ := processNode_spec d cfg p vis rest ind outd nid hI
          cases hpn : processNode d cfg p ⟨vis, rest, ind, outd⟩ nid with
          | error e =>
              have heq : drainP d cfg p (fuel + 1) ⟨vis, nid :: rest, ind, outd⟩ =
                  .err e := by
                rw [drainP, hpn]
              refine ⟨?_, ?_, ?_⟩
              · intro st' hok
                rw [heq] at hok
                cases hok
              · intro _ h
                rw [heq] at h
                cases h
              · intro hwf e' h
                obtain ⟨y, hy, hyk⟩ := pserr e hpn
                have hnidk : nid ∈ cfg.get_node_ids :=
                  (mem_dkeys cfg nid).mp (hI.wl_keys nid (List.mem_cons_self nid rest))
                have hyin : y ∈ cfg.get_node_ids := hwf.nexts d hnidk y hy
                exact hyk ((mem_dkeys cfg y).mpr hyin)
          | ok st₂ =>
              have heq : drainP d cfg p (fuel + 1) ⟨vis, nid :: rest, ind, outd⟩ =
                  drainP d cfg p fuel st₂ := by
                rw [drainP, hpn]
              obtain ⟨hI₂, hm, hle, _⟩ := psok st₂ hpn
              obtain ⟨ihok, ihout, iherr⟩ := ih st₂ hI₂
              refine ⟨?_, ?_, ?_⟩
              · intro st' hok
                rw [heq] at hok
                obtain ⟨hI', hwl', hle'⟩ := ihok st' hok
                exact ⟨hI', hwl', StLE_trans hle' hle⟩
              · intro hfuel
                rw [heq]
                apply ihout
                simp only [List.length_cons] at hfuel hm
                omega
              · intro hwf e
                rw [heq]
                exact iherr hwf e

/-! ### Seeding -/

theorem applySeed_eq_stPush (d : Dir) (st : St) (s : Nat) :
    applySeed d st s = stPush d st s false := by
  cases d <;> rfl

theorem applySeed_inv {d : Dir} {cfg : CFG} {p : PatternCheck} {st : St} {s : Nat}
    (hI : Inv d cfg p st) (hs : s ∈ dkeys cfg) :
    Inv d cfg p (applySeed d st s) := by
  rw [applySeed_eq_stPush]
  have hfark : s ∈ (d.farD st).keys := hI.keys_far ▸ hs
  refine ⟨?_, ?_, ?_, ?_, ?_, ?_, ?_, ?_⟩
  · rw [nearD_stPush]
    exact hI.keys_near
  · rw [farD_stPush, Dict.keys_set_of_mem hfark, hI.keys_far]
  · intro y hy
    rw [stPush_worklist] at hy
    rcases List.mem_cons.mp hy with rfl | hy
    · exact hs
    · exact hI.wl_keys y hy
  · intro y hy
    rw [stPush_worklist] at hy
    rw [stPush_visited]
    rcases List.mem_cons.mp hy with rfl | hy
    · exact List.mem_insert_iff.mpr (Or.inl rfl)
    · exact List.mem_insert_iff.mpr (Or.inr (hI.wl_vis y hy))
  · intro n hn hnvis
    rw [stPush_visited] at hnvis
    have hns : ¬n = s := fun he => hnvis (List.mem_insert_iff.mpr (Or.inl he))
    obtain ⟨h1, h2⟩ := hI.unvis n hn
      (fun he => hnvis (List.mem_insert_iff.mpr (Or.inr he)))
    rw [nearD_stPush, farD_stPush, Dict.lookup_set,
      if_neg (fun he : s = n => hns he.symm)]
    exact ⟨h1, h2⟩
  · intro n hn
    rw [nearD_stPush] at hn
    obtain ⟨hf, hp⟩ := hI.nearFalse n hn
    refine ⟨?_, hp⟩
    rw [farD_stPush, Dict.lookup_set]
    by_cases hsn : s = n
    · rw [if_pos hsn]
    · rw [if_neg hsn]
      exact hf
  · intro n hn hwl
    rw [stPush_worklist] at hwl
    have hns : ¬n = s := fun he => hwl (he ▸ List.mem_cons_self n st.worklist)
    obtain ⟨fv, h1, h2⟩ := hI.fixA n hn (fun he => hwl (List.mem_cons_of_mem s he))
    rw [nearD_stPush, farD_stPush, Dict.lookup_set,
      if_neg (fun he : s = n => hns he.symm)]
    exact ⟨fv, h1, h2⟩
  · intro n hn hwl nx hnx hnear hnk
    rw [stPush_worklist] at hwl
    rw [nearD_stPush] at hnear
    have hold := hI.fixB n hn (fun he => hwl (List.mem_cons_of_mem s he)) nx hnx hnear hnk
    rcases hold with hfalse | ⟨_, hmem⟩
    · rw [farD_stPush, Dict.lookup_set]
      left
      by_cases hsnx : s = nx
      · rw [if_pos hsnx]
      · rw [if_neg hsnx]
        exact hfalse
    · cases hmem

theorem applySeed_phi {d : Dir} {cfg : CFG} (st : St) (s : Nat) :
    Um cfg (applySeed d st s) + Tm (applySeed d st s) +
      (applySeed d st s).worklist.length ≤
      Um cfg st + Tm st + st.worklist.length + 1 := by
  rw [applySeed_eq_stPush]
  have hUm : Um cfg (stPush d st s false) ≤ Um cfg st :=
    countP_unvis_insert_le (dkeys cfg) st.visited s
  have hTm : Tm (stPush d st s false) ≤ Tm st := by
    rw [Tm_near_far d, nearD_stPush, farD_stPush, Tm_near_far d st]
    have := countTrue_set_false_le (d.farD st) s
    omega
  rw [stPush_worklist, List.length_cons]
  omega

theorem applySeed_le (d : Dir) (st : St) (s : Nat) : StLE (applySeed d st s) st := by
  rw [applySeed_eq_stPush]
  exact stPush_le (Or.inl rfl)

theorem applySeed_far_false (d : Dir) (st : St) (s : Nat) :
    (d.farD (applySeed d st s)).lookup s = some false := by
  rw [applySeed_eq_stPush, farD_stPush, Dict.lookup_set, if_pos rfl]

theorem StLE.nearLE (d : Dir) {st' st : St} (h : StLE st' st) :
    DictLE (d.nearD st') (d.nearD st) := by
  cases d
  · exact h.1
  · exact h.2

theorem StLE.farLE (d : Dir) {st' st : St} (h : StLE st' st) :
    DictLE (d.farD st') (d.farD st) := by
  cases d
  · exact h.2
  · exact h.1

/-! ### The outer seeding loop -/

/-- Specification of `for _ in self.pre_loop_init(): <inner loop>` for the
src/ptfa.py drain at the proved-sufficient fuel: the result satisfies the
invariant with an empty worklist, facts only decrease, every seed's far
fact ends `False`, existing `False` far facts persist, fuel never runs
out, and no `KeyError` occurs on a well-formed CFG. -/
theorem runSeedsP_spec (d : Dir) (cfg : CFG) (p : PatternCheck) :
    ∀ (ss : List Nat) (st : St), Inv d cfg p st → st.worklist = [] →
      (∀ x ∈ ss, x ∈ dkeys cfg) →
      (∀ st', runSeeds (drainP d cfg p) d (fuelOf cfg) ss st = .ok st' →
          Inv d cfg p st' ∧ st'.worklist = [] ∧ StLE st' st ∧
          (∀ e ∈ ss, (d.farD st').lookup e = some false) ∧
          (∀ e, (d.farD st).lookup e = some false →
            (d.farD st').lookup e = some false)) ∧
      (runSeeds (drainP d cfg p) d (fuelOf cfg) ss st ≠ .out) ∧
      (WF cfg → ∀ e, runSeeds (drainP d cfg p) d (fuelOf cfg) ss st ≠ .err e) := by
  intro ss
  induction ss with
  | nil =>
      intro st hI hwl _
      refine ⟨?_, ?_, ?_⟩
      · intro st' hok
        cases hok
        exact ⟨hI, hwl, StLE_refl _, fun e he => absurd he (List.not_mem_nil e),
          fun e he => he⟩
      · intro h
        cases h
      · intro _ e h
        cases h
  | cons s ss' ih =>
      intro st hI hwl hss
      have hs : s ∈ dkeys cfg := hss s (List.mem_cons_self s ss')
      have hIS : Inv d cfg p (applySeed d st s) := applySeed_inv hI hs
      have hphiS : Um cfg (applySeed d st s) + Tm (applySeed d st s) +
          (applySeed d st s).worklist.length ≤ fuelOf cfg := by
        have h1 := @applySeed_phi d cfg st s
        have h2 := phi_bound hI hwl
        rw [fuelOf]
        omega
      obtain ⟨dok, dout, derr⟩ :=
        drainP_spec d cfg p (fuelOf cfg) (applySeed d st s) hIS
      cases hdr : drainP d cfg p (fuelOf cfg) (applySeed d st s) with
      | ok st₂ =>
          obtain ⟨hI₂, hwl₂, hle₂⟩ := dok st₂ hdr
          have heq : runSeeds (drainP d cfg p) d (fuelOf cfg) (s :: ss') st =
              runSeeds (drainP d cfg p) d (fuelOf cfg) ss' st₂ := by
            rw [runSeeds, hdr]
          have hsfalse₂ : (d.farD st₂).lookup s = some false :=
            (hle₂.farLE d).false_persist (applySeed_far_false d st s)
          obtain ⟨rok, rout, rerr⟩ :=
            ih st₂ hI₂ hwl₂ (fun x hx => hss x (List.mem_cons_of_mem s hx))
          refine ⟨?_, ?_, ?_⟩
          · intro st' hok
            rw [heq] at hok
            obtain ⟨hI', hwl', hle', hseeds', hpers'⟩ := rok st' hok
            refine ⟨hI', hwl', StLE_trans (StLE_trans hle' hle₂) (applySeed_le d st s),
              ?_, ?_⟩
            · intro e he
              rcases List.mem_cons.mp he with rfl | he'
              · exact hpers' e hsfalse₂
              · exact hseeds' e he'
            · intro e hef
              have h1 : (d.farD (applySeed d st s)).lookup e = some false :=
                ((applySeed_le d st s).farLE d).false_persist hef
              exact hpers' e ((hle₂.farLE d).false_persist h1)
          · rw [heq]
            exact rout
          · intro hwf e
            rw [heq]
            exact rerr hwf e
      | err e =>
          have heq : runSeeds (drainP d cfg p) d (fuelOf cfg) (s :: ss') st =
              .err e := by
            rw [runSeeds, hdr]
          refine ⟨?_, ?_, ?_⟩
          · intro st' hok
            rw [heq] at hok
            cases hok
          · rw [heq]
            intro h
            cases h
          · intro hwf e' _
            exact derr hwf e hdr
      | out =>
          exact absurd hdr (dout hphiS)

/-! ### The initial state -/

theorem nearD_initSt (d : Dir) (cfg : CFG) :
    d.nearD (initSt cfg) = initDict cfg.get_node_ids := by cases d <;> rfl

theorem farD_initSt (d : Dir) (cfg : CFG) :
    d.farD (initSt cfg) = initDict cfg.get_node_ids := by cases d <;> rfl

theorem Inv_init (d : Dir) (cfg : CFG) (p : PatternCheck) :
    Inv d cfg p (initSt cfg) := by
  have hlk : ∀ n ∈ dkeys cfg,
      (initDict cfg.get_node_ids).lookup n = some true := by
    intro n hn
    rw [lookup_initDict, if_pos ((mem_dkeys cfg n).mp hn)]
  have hnf : ∀ n, (initDict cfg.get_node_ids).lookup n = some false → False := by
    intro n hn
    rw [lookup_initDict] at hn
    by_cases hmem : n ∈ cfg.get_node_ids
    · rw [if_pos hmem] at hn
      cases Option.some.inj hn
    · rw [if_neg hmem] at hn
      cases hn
  refine ⟨?_, ?_, ?_, ?_, ?_, ?_, ?_, ?_⟩
  · rw [nearD_initSt]
    rfl
  · rw [farD_initSt]
    rfl
  · intro y hy
    cases hy
  · intro y hy
    cases hy
  · intro n hn _
    rw [nearD_initSt, farD_initSt]
    exact ⟨hlk n hn, hlk n hn⟩
  · intro n hn
    rw [nearD_initSt] at hn
    exact absurd hn (fun h => hnf n h)
  · intro n hn _
    rw [nearD_initSt, farD_initSt]
    refine ⟨true, hlk n hn, ?_⟩
    rw [Bool.true_or]
    exact hlk n hn
  · intro n _ _ nx _ hnear _
    rw [nearD_initSt] at hnear
    exact absurd hnear (fun h => hnf n h)

theorem seedsOf_sub (d : Dir) (cfg : CFG) :
    ∀ x ∈ seedsOf d cfg, x ∈ dkeys cfg := by
  intro x hx
  rw [mem_dkeys]
  cases d <;> exact (List.mem_filter.mp hx).1

/-! ### The whole run, src/ptfa.py variant -/

theorem runP_spec (d : Dir) (cfg : CFG) (p : PatternCheck) :
    (∀ st', runSeeds (drainP d cfg p) d (fuelOf cfg) (seedsOf d cfg)
        (initSt cfg) = .ok st' →
      Inv d cfg p st' ∧ st'.worklist = [] ∧ StLE st' (initSt cfg) ∧
      (∀ e ∈ seedsOf d cfg, (d.farD st').lookup e = some false)) ∧
    (runSeeds (drainP d cfg p) d (fuelOf cfg) (seedsOf d cfg)
      (initSt cfg) ≠ .out) ∧
    (WF cfg → ∀ e, runSeeds (drainP d cfg p) d (fuelOf cfg) (seedsOf d cfg)
      (initSt cfg) ≠ .err e) := by
  obtain ⟨rok, rout, rerr⟩ := runSeedsP_spec d cfg p (seedsOf d cfg) (initSt cfg)
    (Inv_init d cfg p) rfl (seedsOf_sub d cfg)
  refine ⟨?_, rout, rerr⟩
  intro st' hok
  obtain ⟨hI', hwl', hle', hseeds', _⟩ := rok st' hok
  exact ⟨hI', hwl', hle', hseeds'⟩

/-- The src/ptfa.py run, unpacked: an `.ok` result is the final state of the
seeding loop. -/
theorem callP_ok {d : Dir} {cfg : CFG} {p : PatternCheck} {i o : Dict}
    (h : Ptfa.call d p cfg = .ok (i, o)) :
    ∃ st', runSeeds (drainP d cfg p) d (fuelOf cfg) (seedsOf d cfg)
        (initSt cfg) = .ok st' ∧ st'.in_dict = i ∧ st'.out_dict = o := by
  unfold Ptfa.call at h
  cases hr : runSeeds (drainP d cfg p) d (fuelOf cfg) (seedsOf d cfg)
      (initSt cfg) with
  | ok st' =>
      rw [hr] at h
      cases h
      exact ⟨st', rfl, rfl, rfl⟩
  | err e =>
      rw [hr] at h
      cases h
  | out =>
      rw [hr] at h
      cases h

/-- The src/ptfa.py run never exhausts its fuel. -/
theorem callP_not_out (d : Dir) (cfg : CFG) (p : PatternCheck) :
    Ptfa.call d p cfg ≠ .out := by
  unfold Ptfa.call
  cases hr : runSeeds (drainP d cfg p) d (fuelOf cfg) (seedsOf d cfg)
      (initSt cfg) with
  | ok st' =>
      intro h
      cases h
  | err e =>
      intro h
      cases h
  | out =>
      exact absurd hr (runP_spec d cfg p).2.1

/-- On a well-formed CFG the src/ptfa.py run returns a pair. -/
theorem callP_total (d : Dir) (cfg : CFG) (p : PatternCheck) (hwf : WF cfg) :
    ∃ i o, Ptfa.call d p cfg = .ok (i, o) := by
  unfold Ptfa.call
  cases hr : runSeeds (drainP d cfg p) d (fuelOf cfg) (seedsOf d cfg)
      (initSt cfg) with
  | ok st' =>
      exact ⟨st'.in_dict, st'.out_dict, rfl⟩
  | err e =>
      exact absurd hr (fun h => (runP_spec d cfg p).2.2 hwf e h)
  | out =>
      exact absurd hr (runP_spec d cfg p).2.1

/-! ### src/main.py versus src/ptfa.py -/

theorem propagate_wl {d : Dir} {st : St} {nid nx : Nat} {st' : St}
    (h : propagate d st nid nx = .ok st') :
    st'.worklist = st.worklist ∧ st'.visited = st.visited := by
  rw [propagate_eq] at h
  cases hl : (d.nearD st).lookup nid with
  | none =>
      rw [hl] at h
      cases h
  | some v =>
      rw [hl] at h
      cases h
      rw [worklist_withFar, visited_withFar]
      exact ⟨rfl, rfl⟩

theorem foldNexts_wl {d : Dir} {st : St} {nid : Nat} :
    ∀ {l : List Nat} {st' : St}, foldNexts d st nid l = .ok st' →
      ∀ y ∈ st'.worklist, y ∈ st.worklist ∨ y ∈ l := by
  intro l
  induction l generalizing st with
  | nil =>
      intro st' h y hy
      cases h
      exact Or.inl hy
  | cons x rest ih =>
      intro st' h y hy
      rw [foldNexts] at h
      cases hcp : can_propagate d st nid x with
      | error e =>
          rw [hcp] at h
          cases h
      | ok b =>
          rw [hcp] at h
          by_cases hbr : (b || !(st.visited.contains x)) = true
          · simp only [hbr, if_true] at h
            cases hpr : propagate d st nid x with
            | error e =>
                rw [hpr] at h
                cases h
            | ok st₁ =>
                rw [hpr] at h
                obtain ⟨hw, _⟩ := propagate_wl hpr
                rcases ih h y hy with hy' | hy'
                · have hy2 : y ∈ x :: st₁.worklist := hy'
                  rw [hw] at hy2
                  rcases List.mem_cons.mp hy2 with rfl | hy''
                  · exact Or.inr (List.mem_cons_self y rest)
                  · exact Or.inl hy''
                · exact Or.inr (List.mem_cons_of_mem x hy')
          · simp only [hbr, Bool.not_eq_true, Bool.false_eq_true, if_false] at h
            rcases ih h y hy with hy' | hy'
            · exact Or.inl hy'
            · exact Or.inr (List.mem_cons_of_mem x hy')

theorem check_node_wl {d : Dir} {cfg : CFG} {p : PatternCheck} {st : St}
    {nid : Nat} {st' : St} (h : check_node d cfg p st nid = .ok st') :
    st'.worklist = st.worklist := by
  rw [check_node_eq] at h
  cases hl : (d.farD st).lookup nid with
  | none =>
      rw [hl] at h
      cases h
  | some fv =>
      rw [hl] at h
      cases h
      rw [worklist_withNear]

theorem processNode_wl {d : Dir} {cfg : CFG} {p : PatternCheck} {st : St}
    {nid : Nat} {st' : St} (h : processNode d cfg p st nid = .ok st') :
    ∀ y ∈ st'.worklist, y ∈ st.worklist ∨ y ∈ next_nodes d cfg nid := by
  rw [processNode] at h
  cases hchk : check_node d cfg p st nid with
  | error e =>
      rw [hchk] at h
      cases h
  | ok st₁ =>
      rw [hchk] at h
      intro y hy
      rcases foldNexts_wl h y hy with hy' | hy'
      · rw [check_node_wl hchk] at hy'
        exact Or.inl hy'
      · exact Or.inr hy'

theorem drainP_ok_wl_nil {d : Dir} {cfg : CFG} {p : PatternCheck} :
    ∀ {fuel : Nat} {st st' : St}, drainP d cfg p fuel st = .ok st' →
      st'.worklist = [] := by
  intro fuel
  induction fuel with
  | zero =>
      intro st st' h
      obtain ⟨vis, wl, ind, outd⟩ := st
      cases wl with
      | nil =>
          cases h
          rfl
      | cons nid rest =>
          cases h
  | succ fuel ih =>
      intro st st' h
      obtain ⟨vis, wl, ind, outd⟩ := st
      cases wl with
      | nil =>
          cases h
          rfl
      | cons nid rest =>
          rw [drainP] at h
          cases hpn : processNode d cfg p ⟨vis, rest, ind, outd⟩ nid with
          | error e =>
              rw [hpn] at h
              cases h
          | ok st₂ =>
              rw [hpn] at h
              exact ih h

theorem drainP_cons (d : Dir) (cfg : CFG) (p : PatternCheck) (fuel : Nat)
    (vis : List Nat) (nid : Nat) (rest : List Nat) (ind outd : Dict) :
    drainP d cfg p fuel ⟨vis, nid :: rest, ind, outd⟩ =
      match fuel with
      | 0 => .out
      | fuel + 1 =>
          match processNode d cfg p ⟨vis, rest, ind, outd⟩ nid with
          | .error e => .err e
          | .ok st' => drainP d cfg p fuel st' := by
  cases fuel <;> rfl

theorem drainM_cons (d : Dir) (cfg : CFG) (p : PatternCheck) (fuel : Nat)
    (vis : List Nat) (nid : Nat) (rest : List Nat) (ind outd : Dict) :
    drainM d cfg p fuel ⟨vis, nid :: rest, ind, outd⟩ =
      if nid = 0 then .ok ⟨vis, rest, ind, outd⟩
      else
        match fuel with
        | 0 => .out
        | fuel + 1 =>
            match processNode d cfg p ⟨vis, rest, ind, outd⟩ nid with
            | .error e => .err e
            | .ok st' => drainM d cfg p fuel st' := by
  cases fuel <;> rfl

/-- With no node id `0` ever on the worklist and none producible by the
adjacency, the src/main.py inner loop (`while nid := worklist.pop()` under
`suppress(IndexError)`) computes exactly the src/ptfa.py inner loop
(`while self.worklist`). -/
theorem drainM_eq_drainP (d : Dir) (cfg : CFG) (p : PatternCheck)
    (hnz : ∀ n y, y ∈ next_nodes d cfg n → y ≠ 0) :
    ∀ (fuel : Nat) (st : St), (∀ y ∈ st.worklist, y ≠ 0) →
      drainM d cfg p fuel st = drainP d cfg p fuel st := by
  intro fuel
  induction fuel with
  | zero =>
      intro st h0
      obtain ⟨vis, wl, ind, outd⟩ := st
      cases wl with
      | nil => rfl
      | cons nid rest =>
          have hnid : ¬nid = 0 := h0 nid (List.mem_cons_self nid rest)
          rw [drainM_cons, drainP_cons, if_neg hnid]
  | succ fuel ih =>
      intro st h0
      obtain ⟨vis, wl, ind, outd⟩ := st
      cases wl with
      | nil => rfl
      | cons nid rest =>
          have hnid : ¬nid = 0 := h0 nid (List.mem_cons_self nid rest)
          rw [drainM_cons, drainP_cons, if_neg hnid]
          cases hpn : processNode d cfg p ⟨vis, rest, ind, outd⟩ nid with
          | error e => simp only [hpn]
          | ok st₂ =>
              simp only [hpn]
              apply ih
              intro y hy
              rcases processNode_wl hpn y hy with hy' | hy'
              · exact h0 y (List.mem_cons_of_mem nid hy')
              · exact hnz nid y hy'

theorem runSeedsMP_eq (d : Dir) (cfg : CFG) (p : PatternCheck)
    (hnz : ∀ n y, y ∈ next_nodes d cfg n → y ≠ 0) :
    ∀ (ss : List Nat) (st : St), (∀ x ∈ ss, x ≠ 0) →
      (∀ y ∈ st.worklist, y ≠ 0) →
      runSeeds (drainM d cfg p) d (fuelOf cfg) ss st =
        runSeeds (drainP d cfg p) d (fuelOf cfg) ss st := by
  intro ss
  induction ss with
  | nil =>
      intro st _ _
      rfl
  | cons s ss' ih =>
      intro st hss h0
      have h0S : ∀ y ∈ (applySeed d st s).worklist, y ≠ 0 := by
        intro y hy
        rw [applySeed_eq_stPush, stPush_worklist] at hy
        rcases List.mem_cons.mp hy with rfl | hy'
        · exact hss y (List.mem_cons_self y ss')
        · exact h0 y hy'
      have hdm := drainM_eq_drainP d cfg p hnz (fuelOf cfg) (applySeed d st s) h0S
      rw [runSeeds, runSeeds, hdm]
      cases hdr : drainP d cfg p (fuelOf cfg) (applySeed d st s) with
      | ok st₂ =>
          have hwl₂ : st₂.worklist = [] := drainP_ok_wl_nil hdr
          exact ih st₂ (fun x hx => hss x (List.mem_cons_of_mem s hx))
            (by rw [hwl₂]; intro y hy; cases hy)
      | err e => rfl
      | out => rfl

/-- Equivalence of the two `__call__` definitions whenever node id `0` is
absent from the CFG's node ids and adjacency. -/
theorem callM_eq_callP (d : Dir) (cfg : CFG) (p : PatternCheck)
    (h0 : 0 ∉ cfg.get_node_ids)
    (hnz : ∀ n y, y ∈ next_nodes d cfg n → y ≠ 0) :
    Main.call d cfg p = Ptfa.call d p cfg := by
  unfold Main.call Ptfa.call
  rw [runSeedsMP_eq d cfg p hnz (seedsOf d cfg) (initSt cfg) ?hss ?hwl]
  case hss =>
    intro x hx
    intro hx0
    subst hx0
    exact h0 ((mem_dkeys cfg 0).mp (seedsOf_sub d cfg 0 hx))
  case hwl =>
    intro y hy
    cases hy

/-! ### Step-level monotonicity and result-pair projections -/

theorem check_node_le {d : Dir} {cfg : CFG} {p : PatternCheck} {st : St}
    {nid : Nat} {st' : St} (hI : Inv d cfg p st)
    (h : check_node d cfg p st nid = .ok st') : StLE st' st := by
  rw [check_node_eq] at h
  cases hfl : (d.farD st).lookup nid with
  | none =>
      rw [hfl] at h
      cases h
  | some fv =>
      rw [hfl] at h
      cases h
      refine StLE_of_near_far d ?_ ?_
      · rw [nearD_withNear]
        refine DictLE.set (fun ov hov => ?_)
        cases hovv : ov
        · obtain ⟨hff, hpf⟩ := hI.nearFalse nid (hovv ▸ hov)
          rw [hfl] at hff
          left
          rw [Option.some.inj hff, hpf]
          rfl
        · cases hw : (fv || p cfg nid)
          · exact Or.inr ⟨rfl, rfl⟩
          · exact Or.inl rfl
      · rw [farD_withNear]
        exact DictLE_refl _

theorem propagate_le {d : Dir} {cfg : CFG} {p : PatternCheck} {st : St}
    {nid nx : Nat} {st' : St} (hI : Inv d cfg p st)
    (hg : can_propagate d st nid nx = .ok true ∨ nx ∉ st.visited)
    (h : propagate d st nid nx = .ok st') : StLE st' st := by
  rw [propagate_eq] at h
  cases hnl : (d.nearD st).lookup nid with
  | none =>
      rw [hnl] at h
      cases h
  | some v =>
      rw [hnl] at h
      cases h
      refine StLE_of_near_far d ?_ ?_
      · rw [nearD_withFar]
        exact DictLE_refl _
      · rw [farD_withFar]
        refine DictLE.set (fun ov hov => ?_)
        rcases hg with hg | hg
        · obtain ⟨nv, fv, hnv, hfv, hb⟩ := can_propagate_ok hg
          obtain ⟨hnvf, hfvt⟩ := bLT_eq_true.mp hb.symm
          rw [hnl] at hnv
          rw [hfv] at hov
          cases Option.some.inj hnv
          cases Option.some.inj hov
          subst hnvf
          subst hfvt
          exact Or.inr ⟨rfl, rfl⟩
        · have hnxk : nx ∈ dkeys cfg := by
            rw [← hI.keys_far, Dict.mem_keys_iff, hov]
            rfl
          have hft := (hI.unvis nx hnxk hg).2
          rw [hov] at hft
          cases Option.some.inj hft
          cases v
          · exact Or.inr ⟨rfl, rfl⟩
          · exact Or.inl rfl

theorem keys_in_of {d : Dir} {cfg : CFG} {p : PatternCheck} {nid : Nat}
    {l : List Nat} {st : St} (h : FInv d cfg p nid l st) :
    st.in_dict.keys = dkeys cfg := by
  cases d
  · exact h.keys_near
  · exact h.keys_far

theorem keys_out_of {d : Dir} {cfg : CFG} {p : PatternCheck} {nid : Nat}
    {l : List Nat} {st : St} (h : FInv d cfg p nid l st) :
    st.out_dict.keys = dkeys cfg := by
  cases d
  · exact h.keys_far
  · exact h.keys_near

theorem nearOf_pair (d : Dir) (st : St) :
    nearOf d (st.in_dict, st.out_dict) = d.nearD st := by cases d <;> rfl

theorem farOf_pair (d : Dir) (st : St) :
    farOf d (st.in_dict, st.out_dict) = d.farD st := by cases d <;> rfl

theorem mem_seedsOf (d : Dir) (cfg : CFG) (e : Nat) :
    e ∈ seedsOf d cfg ↔ e ∈ cfg.get_node_ids ∧ cfg.get_type e = seedTypeStr d := by
  cases d <;> simp [seedsOf, seedTypeStr, List.mem_filter]

end PTFA

namespace PTFA

open PTFA

/-! ### The claims -/

/-- C1. The src/main.py fixpoint loop `while nid := self.worklist.pop()`
treats node id `0` as falsy: on a CFG whose single Exit node has id `0`,
the run returns with `in_dict[0]` still `True`, although node `0` was
pushed by seeding and its node-check (which would set
`in_dict[0] = out_dict[0] or P = False`) never ran. The src/ptfa.py loop
(`while self.worklist`) runs the check and returns `in_dict[0] = False`.
This exhibits the claim's failure on src/main.py at node id `0`. -/
theorem c1_main_walrus_zero_skips_check :
    Main.call .reachable cfgZero pFalse = .ok ([(0, true)], [(0, false)]) ∧
    Ptfa.call .reachable pFalse cfgZero = .ok ([(0, false)], [(0, false)]) := by
  constructor <;> rfl

/-- C2, counterexample. The two construction styles disagree on the CFG
whose single Exit node has id `0`: the src/main.py engine skips node `0`'s
check while the src/ptfa.py engine performs it. -/
theorem c2_styles_differ_at_node_zero :
    Main.call .reachable cfgZero pFalse ≠ Ptfa.call .reachable pFalse cfgZero := by
  decide

/-- C2, amended. Whenever node id `0` occurs neither among the node ids nor
in any adjacency list, the two construction styles (CFG bound at
construction in src/main.py, predicate bound at construction in src/ptfa.py)
return equal `(in, out)` mapping pairs, for both the Definitely-Reachable
and the Definitely-Reaching engines. -/
theorem c2_styles_agree_without_node_zero (d : Dir) (cfg : CFG) (p : PatternCheck)
    (h0 : 0 ∉ cfg.get_node_ids)
    (hp : ∀ n, 0 ∉ cfg.get_any_parents n)
    (hc : ∀ n, 0 ∉ cfg.get_any_children n) :
    Main.call d cfg p = Ptfa.call d p cfg := by
  refine callM_eq_callP d cfg p h0 (fun n y hy hy0 => ?_)
  subst hy0
  cases d
  · exact hp n hy
  · exact hc n hy

theorem c2_witness :
    0 ∉ cfgChain.get_node_ids ∧
    (∀ n, 0 ∉ cfgChain.get_any_parents n) ∧
    (∀ n, 0 ∉ cfgChain.get_any_children n) ∧
    Main.call .reachable cfgChain pFalse = Ptfa.call .reachable pFalse cfgChain := by
  have hp : ∀ n, 0 ∉ cfgChain.get_any_parents n := by
    intro n
    by_cases h2 : n = 2 <;> by_cases h3 : n = 3 <;>
      simp [cfgChain, h2, h3]
  have hc : ∀ n, 0 ∉ cfgChain.get_any_children n := by
    intro n
    by_cases h1 : n = 1 <;> by_cases h2 : n = 2 <;>
      simp [cfgChain, h1, h2]
  exact ⟨by decide, hp, hc,
    c2_styles_agree_without_node_zero .reachable cfgChain pFalse (by decide) hp hc⟩

/-- C3. On a well-formed CFG with a pure predicate, any `(in, out)` pair
returned by a src/ptfa.py run is a fixpoint: at every node the node-check
rule `near(nid) = far(nid) OR P(cfg, nid)` already holds, and no edge's
propagation guard (`near(nid) < far(next)`) can fire. -/
theorem c3_run_returns_fixpoint (d : Dir) (cfg : CFG) (p : PatternCheck)
    (i o : Dict) (hwf : WF cfg) (h : Ptfa.call d p cfg = .ok (i, o)) :
    (∀ n ∈ cfg.get_node_ids,
      ∃ fv, (farOf d (i, o)).lookup n = some fv ∧
        (nearOf d (i, o)).lookup n = some (fv || p cfg n)) ∧
    (∀ n ∈ cfg.get_node_ids, ∀ nx ∈ next_nodes d cfg n,
      ¬((nearOf d (i, o)).lookup n = some false ∧
        (farOf d (i, o)).lookup nx = some true)) := by
  obtain ⟨st', hrs, hin, hout⟩ := callP_ok h
  obtain ⟨hI, hwl, _, _⟩ := (runP_spec d cfg p).1 st' hrs
  have hnear : nearOf d (i, o) = d.nearD st' := by
    rw [← hin, ← hout, nearOf_pair]
  have hfar : farOf d (i, o) = d.farD st' := by
    rw [← hin, ← hout, farOf_pair]
  rw [hnear, hfar]
  constructor
  · intro n hn
    exact hI.fixA n ((mem_dkeys cfg n).mpr hn) (by rw [hwl]; exact List.not_mem_nil n)
  · intro n hn nx hnx ⟨hnearf, hfart⟩
    have hnxk : nx ∈ dkeys cfg :=
      (mem_dkeys cfg nx).mpr (hwf.nexts d hn nx hnx)
    have hres := hI.fixB n ((mem_dkeys cfg n).mpr hn)
      (by rw [hwl]; exact List.not_mem_nil n) nx hnx hnearf hnxk
    rcases hres with hff | ⟨_, hmem⟩
    · rw [hff] at hfart
      cases Option.some.inj hfart
    · cases hmem

theorem c3_witness :
    WF cfgChain ∧
    ((∀ n ∈ cfgChain.get_node_ids,
      ∃ fv, (farOf .reachable ([(1, false), (2, false), (3, false)],
          [(1, false), (2, false), (3, false)])).lookup n = some fv ∧
        (nearOf .reachable ([(1, false), (2, false), (3, false)],
          [(1, false), (2, false), (3, false)])).lookup n =
          some (fv || pFalse cfgChain n)) ∧
    (∀ n ∈ cfgChain.get_node_ids, ∀ nx ∈ next_nodes .reachable cfgChain n,
      ¬((nearOf .reachable ([(1, false), (2, false), (3, false)],
          [(1, false), (2, false), (3, false)])).lookup n = some false ∧
        (farOf .reachable ([(1, false), (2, false), (3, false)],
          [(1, false), (2, false), (3, false)])).lookup nx = some true))) :=
  ⟨by decide,
    c3_run_returns_fixpoint .reachable cfgChain pFalse _ _ (by decide) (by decide)⟩

/-- C4. Monotone convergence: starting from any state satisfying the run
invariant, each engine step only lowers facts pointwise (`True → False` or
unchanged) — seeding, the node-check, and propagation as guarded by the
loop (`can_propagate` true or the neighbor unvisited). -/
theorem c4_steps_monotone_decreasing (d : Dir) (cfg : CFG) (p : PatternCheck)
    (st : St) (hI : Inv d cfg p st) :
    (∀ s, StLE (applySeed d st s) st) ∧
    (∀ nid st', check_node d cfg p st nid = .ok st' → StLE st' st) ∧
    (∀ nid nx st', (can_propagate d st nid nx = .ok true ∨ nx ∉ st.visited) →
      propagate d st nid nx = .ok st' → StLE st' st) := by
  refine ⟨fun s => applySeed_le d st s, ?_, ?_⟩
  · intro nid st' h
    exact check_node_le hI h
  · intro nid nx st' hg h
    exact propagate_le hI hg h

theorem c4_witness :
    Inv .reachable cfgChain pFalse (initSt cfgChain) ∧
    StLE (applySeed .reachable (initSt cfgChain) 3) (initSt cfgChain) :=
  ⟨Inv_init .reachable cfgChain pFalse,
    (c4_steps_monotone_decreasing .reachable cfgChain pFalse (initSt cfgChain)
      (Inv_init .reachable cfgChain pFalse)).1 3⟩

/-- C5. Termination: on a well-formed CFG the src/ptfa.py worklist fixpoint
run at the proved fuel bound never exhausts its fuel — the loop always
ends, even on cyclic graphs. -/
theorem c5_run_terminates (d : Dir) (cfg : CFG) (p : PatternCheck)
    (hwf : WF cfg) : Ptfa.call d p cfg ≠ RunRes.out := by
  exact callP_not_out d cfg p

theorem c5_witness :
    WF cfgChain ∧ Ptfa.call .reachable pFalse cfgChain ≠ RunRes.out :=
  ⟨by decide, c5_run_terminates .reachable cfgChain pFalse (by decide)⟩

/-- C6. Totality: on a well-formed CFG the run returns, and both returned
mappings have key sets exactly `get_node_ids` — no key missing, none
added. -/
theorem c6_run_total_key_sets (d : Dir) (cfg : CFG) (p : PatternCheck)
    (hwf : WF cfg) :
    ∃ i o, Ptfa.call d p cfg = .ok (i, o) ∧
      (∀ n, (i.lookup n).isSome ↔ n ∈ cfg.get_node_ids) ∧
      (∀ n, (o.lookup n).isSome ↔ n ∈ cfg.get_node_ids) := by
  obtain ⟨i, o, h⟩ := callP_total d cfg p hwf
  refine ⟨i, o, h, ?_, ?_⟩
  all_goals
    obtain ⟨st', hrs, hin, hout⟩ := callP_ok h
    obtain ⟨hI, _, _, _⟩ := (runP_spec d cfg p).1 st' hrs
  · intro n
    rw [← hin, ← Dict.mem_keys_iff, keys_in_of hI, mem_dkeys]
  · intro n
    rw [← hout, ← Dict.mem_keys_iff, keys_out_of hI, mem_dkeys]

theorem c6_witness :
    WF cfgChain ∧
    ∃ i o, Ptfa.call .reachable pFalse cfgChain = .ok (i, o) ∧
      (∀ n, (Dict.lookup i n).isSome ↔ n ∈ cfgChain.get_node_ids) ∧
      (∀ n, (Dict.lookup o n).isSome ↔ n ∈ cfgChain.get_node_ids) :=
  ⟨by decide, c6_run_total_key_sets .reachable cfgChain pFalse (by decide)⟩

/-- C7. Seed boundary: after a Definitely-Reachable run on a well-formed
CFG with at least one Exit node, the returned `out` mapping is `False` at
every Exit node; dually, after a Definitely-Reaching run on a CFG with at
least one Entry node, the returned `in` mapping is `False` at every Entry
node. -/
theorem c7_seed_boundary_false (cfg : CFG) (p : PatternCheck) (hwf : WF cfg) :
    ((∃ e ∈ cfg.get_node_ids, cfg.get_type e = "Exit") →
      ∀ i o, Ptfa.call .reachable p cfg = .ok (i, o) →
        ∀ e ∈ cfg.get_node_ids, cfg.get_type e = "Exit" →
          o.lookup e = some false) ∧
    ((∃ e ∈ cfg.get_node_ids, cfg.get_type e = "Entry") →
      ∀ i o, Ptfa.call .reaching p cfg = .ok (i, o) →
        ∀ e ∈ cfg.get_node_ids, cfg.get_type e = "Entry" →
          i.lookup e = some false) := by
  constructor
  · intro _ i o h e he hty
    obtain ⟨st', hrs, hin, hout⟩ := callP_ok h
    obtain ⟨_, _, _, hseeds⟩ := (runP_spec .reachable cfg p).1 st' hrs
    have hmem : e ∈ seedsOf .reachable cfg :=
      (mem_seedsOf .reachable cfg e).mpr ⟨he, hty⟩
    have := hseeds e hmem
    rw [← hout]
    exact this
  · intro _ i o h e he hty
    obtain ⟨st', hrs, hin, hout⟩ := callP_ok h
    obtain ⟨_, _, _, hseeds⟩ := (runP_spec .reaching cfg p).1 st' hrs
    have hmem : e ∈ seedsOf .reaching cfg :=
      (mem_seedsOf .reaching cfg e).mpr ⟨he, hty⟩
    have := hseeds e hmem
    rw [← hin]
    exact this

theorem c7_witness :
    WF cfgChain ∧
    Dict.lookup [(1, false), (2, false), (3, false)] 3 = some false :=
  ⟨by decide,
    (c7_seed_boundary_false cfgChain pFalse (by decide)).1
      ⟨3, by decide, rfl⟩ [(1, false), (2, false), (3, false)]
      [(1, false), (2, false), (3, false)] (by decide) 3 (by decide) rfl⟩

/-- C8. No seeds: when no node has the seeding category (`Exit` for
Definitely-Reachable, `Entry` for Definitely-Reaching), the run does not
fail, returns the all-`True` initial mappings, and its result does not
depend on the predicate. -/
theorem c8_no_seeds_returns_all_true (d : Dir) (cfg : CFG) (p : PatternCheck)
    (h : ∀ n ∈ cfg.get_node_ids, ¬cfg.get_type n = seedTypeStr d) :
    Ptfa.call d p cfg =
      .ok (initDict cfg.get_node_ids, initDict cfg.get_node_ids) ∧
    (∀ n ∈ cfg.get_node_ids,
      (initDict cfg.get_node_ids).lookup n = some true) ∧
    (∀ q, Ptfa.call d p cfg = Ptfa.call d q cfg) := by
  have hse : seedsOf d cfg = [] := by
    cases d <;>
      · simp only [seedsOf, List.filter_eq_nil_iff]
        intro a ha
        simpa [seedTypeStr] using h a ha
  have hrun : ∀ q : PatternCheck, Ptfa.call d q cfg =
      .ok (initDict cfg.get_node_ids, initDict cfg.get_node_ids) := by
    intro q
    unfold Ptfa.call
    rw [hse]
    rfl
  refine ⟨hrun p, ?_, fun q => (hrun p).trans (hrun q).symm⟩
  intro n hn
  rw [lookup_initDict, if_pos hn]

theorem c8_witness :
    (∀ n ∈ cfgNoSeeds.get_node_ids,
      ¬cfgNoSeeds.get_type n = seedTypeStr .reachable) ∧
    Ptfa.call .reachable pTrue cfgNoSeeds =
      .ok (initDict cfgNoSeeds.get_node_ids, initDict cfgNoSeeds.get_node_ids) :=
  ⟨by decide,
    (c8_no_seeds_returns_all_true .reachable cfgNoSeeds pTrue (by decide)).1⟩

/-- C9, counterexample. On a single isolated node typed `Exit` with a
predicate returning `True`, a Definitely-Reaching run finds no Entry seed:
it returns the all-`True` initial state (`in = True`), not the claimed
`in = False`, `out = True`. -/
theorem c9_reaching_ignores_exit_typed_node :
    Ptfa.call .reaching pTrue cfgIso = .ok ([(7, true)], [(7, true)]) ∧
    ¬Ptfa.call .reaching pTrue cfgIso = .ok ([(7, false)], [(7, true)]) := by
  decide

/-- C9, amended. On a single isolated node typed `Entry` with a predicate
returning `True`, Definitely-Reaching seeds `in = False` and returns
`out = in OR P = True`. -/
theorem c9_entry_typed_node :
    Ptfa.call .reaching pTrue cfgIsoEntry = .ok ([(7, false)], [(7, true)]) := by
  rfl

/-- C10. Malformed adjacency: a CFG whose Exit node `1` has the foreign
parent `2` makes the run raise `KeyError` from the propagation guard's far
dictionary lookup (`out_dict[next_nid]`); and on every well-formed CFG no
lookup error can occur — the run returns a pair. -/
theorem c10_keyerror_on_malformed_adjacency :
    Ptfa.call .reachable pFalse cfgBadAdj =
      .err (.keyError .guardFar 2) ∧
    (∀ (d : Dir) (cfg : CFG) (p : PatternCheck), WF cfg →
      ∃ i o, Ptfa.call d p cfg = .ok (i, o)) := by
  refine ⟨by rfl, ?_⟩
  intro d cfg p hwf
  exact callP_total d cfg p hwf

theorem c10_witness :
    WF cfgChain ∧ ∃ i o, Ptfa.call .reachable pFalse cfgChain = .ok (i, o) :=
  ⟨by decide,
    c10_keyerror_on_malformed_adjacency.2 .reachable cfgChain pFalse (by decide)⟩

end PTFA
